import Mathlib

/-!
Verification of the Shuai-KV replicated key-value store.

The development shallowly embeds the C++ sources of the repository:
the LSM storage layer (skip-list MemTable, SSTs, Manifest with
size-tiered compaction, block cache, bloom filter) and the Raft
replication core (RaftLog over a ring buffer, the Pod vote and append
handlers).  Keys and values are byte strings in the source, totally
ordered by lexicographic byte comparison; they are modelled as `List ℕ`
of byte values with the lexicographic order (Mathlib's linear order on
lists).  Machine counters (`size_t`) are modelled as `ℕ`; the places
where wrap-around could matter are noted at the definitions.
-/

namespace ShuaiKV

/-- Byte-string keys (`std::string` / `std::string_view` in the source),
ordered lexicographically. -/
abbrev Key := List Nat

/-- Byte-string values. -/
abbrev Value := List Nat

/-- A key/value entry as stored by the skip list and the SSTs
(`shuaikv::lsm::Node` payload, `shuaikv::lsm::EntryView`). -/
structure Entry where
  key : Key
  value : Value
deriving Repr, DecidableEq, Inhabited

/-! ### ConcurrentSkipList (`shuaikv/lsm/skiplist.hpp`)

The skip list's observable content is its level-0 linked list: `Get`,
`Put` and `Delete` all finish on level 0, and the higher levels are
search accelerators holding pointers into the same nodes.  The model
therefore embeds the level-0 node list (kept in strictly ascending key
order by `Put`) together with the two counters `size_` and
`binary_size_`.  The spin lock serialises operations, so the sequential
model is faithful for the single-operation claims. -/

/-- The level-0 search of `ConcurrentSkipList::Get`: advance while the
next node's key is `< key`, then test the next node for equality. -/
def skipFind : List Entry → Key → Option Value
  | [], _ => none
  | e :: rest, k =>
    if e.key < k then skipFind rest k
    else if e.key = k then some e.value else none

/-- The level-0 effect of `ConcurrentSkipList::Put`: walk to the first
node whose key is not `< key`; overwrite its value if the key matches
(returning the old value), otherwise link a new node in front of it.
Returns the new node list and the overwritten value, if any. -/
def skipPut : List Entry → Key → Value → List Entry × Option Value
  | [], k, v => ([⟨k, v⟩], none)
  | e :: rest, k, v =>
    if e.key < k then
      let r := skipPut rest k v
      (e :: r.1, r.2)
    else if e.key = k then (⟨k, v⟩ :: rest, some e.value)
    else (⟨k, v⟩ :: e :: rest, none)

/-- `ConcurrentSkipList::RandLevel`: `level = 1`, then
`while ((GlobalRand() & 3) == 0) ++level`.  The argument is the stream
of `GlobalRand()` draws consumed by the loop (the loop stops by itself
once a draw is not divisible by 4; an exhausted stream also stops it). -/
def randLevel : List Nat → Nat
  | [] => 1
  | d :: rest => if d % 4 = 0 then randLevel rest + 1 else 1

/-- MemTable state (`shuaikv::lsm::MemTable` wraps `ConcurrentSkipList`):
the level-0 entry list plus the counters `size_` and `binary_size_`. -/
structure MemTable where
  entries : List Entry
  size : Nat
  binarySize : Nat
deriving Repr, DecidableEq

/-- The empty MemTable (a freshly constructed skip list). -/
def MemTable.empty : MemTable := ⟨[], 0, 0⟩

/-- `MemTable::Get` = `ConcurrentSkipList::Get`. -/
def MemTable.get (m : MemTable) (k : Key) : Option Value :=
  skipFind m.entries k

/-- `MemTable::Put` = `ConcurrentSkipList::Put` with counter updates:
on overwrite `binary_size_ += value.size() - old.size()` (the `size_t`
wrap-around cancels because `binary_size_` dominates the old length on
sorted states), on insert `++size_` and
`binary_size_ += key.size() + value.size()`. -/
def MemTable.put (m : MemTable) (k : Key) (v : Value) : MemTable :=
  match skipPut m.entries k v with
  | (es, some old) => ⟨es, m.size, m.binarySize + v.length - old.length⟩
  | (es, none) => ⟨es, m.size + 1, m.binarySize + k.length + v.length⟩

/-! ### RingBufferQueue (`shuaikv/utils/ring_buffer_queue.hpp`)

The backing array `data_` is modelled as a total map from the raw
(unmasked) cursor values used by the source — `PushBack` writes
`data_[++head_]` without masking.  `head_`/`tail_` only grow (except for
`Truncate`/`PopBack`), so the raw cursors identify slots uniquely in the
executions the claims quantify over. -/

/-- `ring_buffer_size_ = (1 << 10) << 8`. -/
def ringBufferSize : Nat := (1 <<< 10) <<< 8

/-- Ring buffer of Raft log entries (`cpputil::pbds::RingBufferQueue`). -/
structure RingBufferQueue (T : Type) where
  data : Nat → Option T
  head : Nat
  tail : Nat

/-- `PushBack`: full iff `((head_ + 1) & ring_buffer_size_musk_) == tail_`
(the mask is `ring_buffer_size_ - 1`, a power of two, so `& musk` is
`% ringBufferSize`); on success `data_[++head_] = rhs`. -/
def RingBufferQueue.pushBack {T : Type} (q : RingBufferQueue T) (x : T) :
    Option (RingBufferQueue T) :=
  if (q.head + 1) % ringBufferSize = q.tail then none
  else some ⟨Function.update q.data (q.head + 1) (some x), q.head + 1, q.tail⟩

/-- `Size()`: `head_ - tail_`. -/
def RingBufferQueue.size {T : Type} (q : RingBufferQueue T) : Nat :=
  q.head - q.tail

/-- `Truncate(count)`: removes `min(count, head_ - tail_)` elements from
the back, returns the number removed. -/
def RingBufferQueue.truncate {T : Type} (q : RingBufferQueue T) (count : Nat) :
    RingBufferQueue T × Nat :=
  if q.tail = q.head then (q, 0)
  else
    let c := min count (q.head - q.tail)
    (⟨q.data, q.head - c, q.tail⟩, c)

/-! ### RaftLog (`shuaikv/raft/raft_log.hpp`) -/

/-- A Raft log entry (the `Entry` protobuf message: `index`, `term`,
`key`, `value`, `mode`, and the piggy-backed `commited` field set by the
leader on replicated entries; a default-constructed message has
`commited() == 0`). -/
structure RaftEntry where
  index : Nat
  term : Int
  key : Key
  value : Value
  mode : Nat
  commited : Nat
deriving Repr, DecidableEq, Inhabited

/-- RaftLog state: the ring buffer plus the counters `index_`,
`commited_`, `last_append_` (the applier cursor, called `last_applied`
in the specification), `start_index_`, and the shutdown flag `stop_`. -/
structure RaftLog where
  queue : RingBufferQueue RaftEntry
  index : Nat
  commited : Nat
  lastApplied : Nat
  startIndex : Nat
  stopped : Bool

/-- `RaftLog::Put(key, value, term, idx)`: builds a fresh entry with
`index = index_ + 1` and `commited = 0` (protobuf default), pushes it;
on success increments `index_`, reports the new index through `idx`,
and raises `commited_` to the entry's `commited` if larger.  Returns
the unchanged log and `none` when stopped or when the ring is full. -/
def RaftLog.putLocal (l : RaftLog) (k : Key) (v : Value) (term : Int) :
    RaftLog × Option Nat :=
  if l.stopped then (l, none)
  else
    let entry : RaftEntry := ⟨l.index + 1, term, k, v, 0, 0⟩
    match l.queue.pushBack entry with
    | some q =>
      ({ l with
          queue := q
          index := l.index + 1
          commited := if entry.commited > l.commited then entry.commited else l.commited },
        some (l.index + 1))
    | none => (l, none)

/-- `RaftLog::Put(Entry&)` (replication path): pushes the entry as
received from the leader; on success increments `index_` and raises
`commited_` to the entry's piggy-backed `commited` if larger. -/
def RaftLog.putEntry (l : RaftLog) (e : RaftEntry) : RaftLog × Bool :=
  if l.stopped then (l, false)
  else
    match l.queue.pushBack e with
    | some q =>
      ({ l with
          queue := q
          index := l.index + 1
          commited := if e.commited > l.commited then e.commited else l.commited },
        true)
    | none => (l, false)

/-- `RaftLog::Reset(expect_index)`: truncate the suffix so that
`index_` drops towards `expect_index` (bounded by the number of entries
actually held in the ring). -/
def RaftLog.reset (l : RaftLog) (expect : Nat) : RaftLog :=
  if expect < l.index then
    let r := l.queue.truncate (l.index - expect)
    { l with queue := r.1, index := l.index - r.2 }
  else l

/-- `RaftLog::UpdateCommit(leader_commit)`:
`commited_ = max(commited_, min(index_, leader_commit))`. -/
def RaftLog.updateCommit (l : RaftLog) (leaderCommit : Nat) : RaftLog :=
  { l with commited := max l.commited (min l.index leaderCommit) }

/-- One iteration of the applier (`sync_thread` body): if
`last_append_ < commited_`, advance `last_append_` (the entry fetch and
`db_->Put` act on the storage engine, not on the counters). -/
def RaftLog.applyStep (l : RaftLog) : RaftLog :=
  if l.lastApplied < l.commited then { l with lastApplied := l.lastApplied + 1 } else l

/-- The ordering invariant claimed for the RaftLog:
`start_index ≤ last_applied ≤ commited ≤ index`. -/
def RaftLog.wf (l : RaftLog) : Prop :=
  l.startIndex ≤ l.lastApplied ∧ l.lastApplied ≤ l.commited ∧ l.commited ≤ l.index

instance (l : RaftLog) : Decidable l.wf := by
  unfold RaftLog.wf; infer_instance

/-- `Pod::UpdateRaftLog(entries, leader_commit)` (follower append path):
exactly one entry is supported (else code `-3`).  If the entry's index
is not `index_ + 1`, the log is truncated to `commited_` via `Reset`
when `leader_commit < index_` and `leader_commit > commited_`, and the
append is attempted again; a still-misaligned entry yields code `-2`.
Returns the updated log and the response code. -/
def updateRaftLog (l : RaftLog) (entries : List RaftEntry) (leaderCommit : Nat) :
    RaftLog × Int :=
  match entries with
  | [e] =>
    if e.index ≠ l.index + 1 then
      let l1 := if leaderCommit < l.index ∧ l.commited < leaderCommit
                then l.reset l.commited else l
      if e.index ≠ l1.index + 1 then (l1, -2) else ((l1.putEntry e).1, 0)
    else ((l.putEntry e).1, 0)
  | _ => (l, -3)

/-! ### BlockCache (`shuaikv/lsm/block_cache.hpp`)

All operations run under a single mutex, so the sequential model is
faithful.  The hash map `cache_map_` is an index into the LRU list (one
entry per key, kept in sync), so the state is modelled by the list
alone: lookups scan for the key.  `min_utilization` is a `double` in
the source; it is modelled as an exact rational `num/den`, and the
utilization test `data.size() / min_block_size < min_utilization`
(exact for the representable configuration values in use) is embedded
by cross-multiplication: `data.size() * den < num * min_block_size`,
equivalent for positive `den` and `min_block_size` — and also at
`min_block_size = 0`, where the IEEE quotient is `+inf` and both
reject nothing. -/

/-- `BlockCache::Config`. -/
structure CacheConfig where
  maxCapacity : Nat
  minBlockSize : Nat
  maxBlockSize : Nat
  maxBlockCount : Nat
  minUtilNum : Nat
  minUtilDen : Nat
deriving DecidableEq

/-- A cached block (`shuaikv::lsm::CacheBlock`). -/
structure CacheBlock where
  sstId : Nat
  blockOffset : Nat
  data : List Nat
deriving Repr, DecidableEq

/-- The mutable cache state: the LRU list (front = MRU, back = LRU) and
the stats counters touched by `Put`. -/
structure CacheState where
  lru : List CacheBlock
  currentSize : Nat
  currentCount : Nat
  rejectedCount : Nat
  evictedCount : Nat
deriving Repr, DecidableEq

/-- `BlockCache::MakeKey`: `(Key(sst_id) << 32) | Key(block_offset)` in
`uint64_t` arithmetic. -/
def makeKey (sstId blockOffset : Nat) : Nat :=
  Nat.lor ((sstId % 2 ^ 64) <<< 32 % 2 ^ 64) (blockOffset % 2 ^ 64)

/-- Key of a cache block. -/
def CacheBlock.key (b : CacheBlock) : Nat := makeKey b.sstId b.blockOffset

/-- `BlockCache::EvictIfNeeded(new_block_size)`: while
`current_size + new_block_size > max_capacity` or
(`max_block_count > 0` and `current_count >= max_block_count`), remove
the back (LRU) block, updating `current_size`, `current_count` and
`evicted_count`; stop when the list is empty.  The loop is bounded by
an explicit iteration budget (`fuel`); each round shrinks the list by
one, so the budget `lru.length` used below never runs out early. -/
def evictLoop (cfg : CacheConfig) (n : Nat) : Nat → CacheState → CacheState
  | 0, st => st
  | fuel + 1, st =>
    if cfg.maxCapacity < st.currentSize + n ∨
       (0 < cfg.maxBlockCount ∧ cfg.maxBlockCount ≤ st.currentCount) then
      match st.lru.getLast? with
      | none => st
      | some b =>
        evictLoop cfg n fuel
          { st with
              lru := st.lru.dropLast
              currentSize := st.currentSize - b.data.length
              currentCount := st.currentCount - 1
              evictedCount := st.evictedCount + 1 }
    else st

/-- `EvictIfNeeded` proper; the loop removes one block per iteration,
so `lru.length` rounds always suffice. -/
def evictIfNeeded (cfg : CacheConfig) (st : CacheState) (n : Nat) : CacheState :=
  evictLoop cfg n st.lru.length st

/-- `BlockCache::Put(sst_id, block_offset, data)`: reject empty data,
oversized data (`> max_block_size`), and low utilization
(`data.size() / min_block_size < min_utilization`, computed in
floating point).  An already-cached key has its block overwritten in
place and moved to the front (`current_size` is not adjusted).  A new
key first evicts as needed, then is inserted at the front. -/
def cachePut (cfg : CacheConfig) (st : CacheState) (sstId blockOffset : Nat)
    (data : List Nat) : Bool × CacheState :=
  if data.length = 0 then (false, st)
  else if cfg.maxBlockSize < data.length then
    (false, { st with rejectedCount := st.rejectedCount + 1 })
  else if data.length * cfg.minUtilDen < cfg.minUtilNum * cfg.minBlockSize then
    (false, { st with rejectedCount := st.rejectedCount + 1 })
  else
    let key := makeKey sstId blockOffset
    match st.lru.find? (fun b => b.key == key) with
    | some b =>
      (true, { st with
          lru := { b with data := data } :: st.lru.filter (fun c => c.key != key) })
    | none =>
      let st1 := evictIfNeeded cfg st data.length
      (true, { st1 with
          lru := ⟨sstId, blockOffset, data⟩ :: st1.lru
          currentSize := st1.currentSize + data.length
          currentCount := st1.currentCount + 1 })

/-- The stats/list synchronisation of a BlockCache: `current_size` and
`current_count` track the LRU list.  (It holds for every state built
by `Put`/`Remove`/`Clear` that never took the overwrite branch.) -/
def cacheSync (st : CacheState) : Prop :=
  st.currentSize = (st.lru.map (fun b => b.data.length)).sum ∧
  st.currentCount = st.lru.length

instance (st : CacheState) : Decidable (cacheSync st) := by
  unfold cacheSync; infer_instance

/-! ### BloomFilter (`shuaikv/utils/bloom_filter.hpp`)

`Save` and `Load` move only 8-byte quantities at 8-byte-aligned
offsets (`seed_num`, `length`, the seeds, and the bit-array words), so
the serialised buffer is modelled at word granularity: a `List ℕ` of
64-bit words.  The header before the bit array is `2 + hash_num` words,
always 8-byte aligned, so the source's alignment step always skips
exactly one word; `Save` leaves that word untouched, and the fresh
mmap'd pages it writes into read as zero, so the model emits a zero
word there. -/

/-- Bloom filter state: `hash_num_`, `length_` (bit count), the seeds,
and the bit array of `length_ / 64 + 1` words (`size_`). -/
structure BloomFilter where
  hashNum : Nat
  length : Nat
  seeds : List Nat
  data : List Nat
deriving Repr, DecidableEq

/-- An initialised filter (`Init` or a faithful `Load`): the seed
vector has `hash_num_` entries and the bit array has
`length_ / 64 + 1` words. -/
def BloomFilter.wf (f : BloomFilter) : Prop :=
  f.seeds.length = f.hashNum ∧ f.data.length = f.length / 64 + 1

instance (f : BloomFilter) : Decidable f.wf := by
  unfold BloomFilter.wf; infer_instance

/-- `BloomFilter::Save`: `[hash_num][length][seeds…][one pad word][bit words…]`. -/
def BloomFilter.save (f : BloomFilter) : List Nat :=
  f.hashNum :: f.length :: (f.seeds ++ 0 :: f.data)

/-- `BloomFilter::Load`: reads `hash_num_` and `length_`, then
`hash_num_` seed words, recomputes `size_ = length_ / 64 + 1`, skips
the alignment word and views the next `size_` words as the bit array. -/
def BloomFilter.load (ws : List Nat) : BloomFilter :=
  let k := ws.getD 0 0
  let len := ws.getD 1 0
  { hashNum := k
    length := len
    seeds := (ws.drop 2).take k
    data := (ws.drop (2 + k + 1)).take (len / 64 + 1) }

/-- `static_cast<size_t>(c)` for a `char` holding byte `b`: `char` is
signed on the target, so bytes `≥ 128` sign-extend. -/
def charToSizeT (b : Nat) : Nat := if b < 128 then b else 2 ^ 64 - 256 + b

/-- `BloomFilter::CalcHash`: `res = res * seed + s[i]` over the bytes,
in wrapping `size_t` arithmetic. -/
def calcHash (s : Key) (seed : Nat) : Nat :=
  s.foldl (fun r b => (r * seed + charToSizeT b) % 2 ^ 64) 0

/-- `BloomFilter::Check`: every seed's bit
(`data_[key / 64] & (1 << (key & 63))` with `key = hash % length_`)
must be set. -/
def BloomFilter.check (f : BloomFilter) (s : Key) : Bool :=
  f.seeds.all (fun seed =>
    let key := calcHash s seed % f.length
    Nat.testBit (f.data.getD (key / 64) 0) (key % 64))

/-- `BloomFilter::Insert`: set each seed's bit:
`data_[key / 64] |= 1 << (key & 63)`. -/
def BloomFilter.insert (f : BloomFilter) (s : Key) : BloomFilter :=
  { f with
      data := f.seeds.foldl (fun d seed =>
        let key := calcHash s seed % f.length
        d.set (key / 64) (Nat.lor (d.getD (key / 64) 0) (1 <<< (key % 64)))) f.data }

/-! ### Pod vote handler (`shuaikv/raft/pod.hpp`, `Pod::Vote`) -/

/-- Raft node roles (`shuaikv::raft::PodStatus`). -/
inductive PodStatus where
  | Candidate
  | Leader
  | Follower
deriving Repr, DecidableEq

/-- The slice of `Pod` state read and written by `Pod::Vote`: `term_`,
`voted_`, `status_`, and the atomic snapshot of `raft_log_.index()`.
(`last_time_` and the replicator shutdown on step-down are side effects
outside this state.) -/
structure PodState where
  term : Int
  voted : Bool
  status : PodStatus
  logIndex : Nat
deriving Repr, DecidableEq

/-- `Pod::Vote(req)`: reject when `req.term() < term_`; reject when
`req.term() == term_` and `req.index() < raft_log_.index()`; reject when
`req.term() == term_` and `voted_`; otherwise, when `req.term() > term_`
adopt the term and fall back to `Follower`, then grant with
`voted_ = true`. -/
def Pod.vote (p : PodState) (reqTerm : Int) (reqIndex : Nat) : Bool × PodState :=
  if reqTerm < p.term then (false, p)
  else if reqTerm = p.term ∧ reqIndex < p.logIndex then (false, p)
  else if reqTerm = p.term ∧ p.voted then (false, p)
  else
    let p1 := if reqTerm > p.term
              then { p with term := reqTerm, status := PodStatus.Follower }
              else p
    (true, { p1 with voted := true })

/-! ### Size-tiered compaction (`shuaikv/lsm/manifest.hpp`)

`Manifest::SizeTieredCompaction(level, id)` merges all SSTs of a level
with the overlapping SSTs of the next level through a priority queue of
per-SST iterators.  An SST is modelled by its sorted entry list (the
source SSTs always consist of a single data block, written by the `SST`
constructors with an index-block count of 1). -/

/-- One live source in the compaction queue
(`Manifest::SizeTieredCompactionStruct`): the iterator's remaining
entries plus `second_value`. -/
structure MergeSrc where
  secondValue : Nat
  entries : List Entry
deriving Repr, DecidableEq

/-- The key currently under the source's iterator. -/
def MergeSrc.headKey (s : MergeSrc) : Key := (s.entries.headD default).key

/-- The queue's priority order (`SizeTieredCompactionStruct::operator<`
read as a min-order): `a` pops before `b` iff `a`'s current key is
smaller, or the keys are equal and `a.second_value` is smaller. -/
def popsBefore (a b : MergeSrc) : Prop :=
  a.headKey < b.headKey ∨ (a.headKey = b.headKey ∧ a.secondValue < b.secondValue)

instance (a b : MergeSrc) : Decidable (popsBefore a b) := by
  unfold popsBefore; infer_instance

/-- Extract the pop-first element of `best :: rest` (what
`queue.top(); queue.pop()` yields), returning it and the remaining
sources. -/
def popMinAux (best : MergeSrc) : List MergeSrc → MergeSrc × List MergeSrc
  | [] => (best, [])
  | s :: rest =>
    if popsBefore s best then
      let r := popMinAux s rest
      (r.1, best :: r.2)
    else
      let r := popMinAux best rest
      (r.1, s :: r.2)

/-- Loop-iteration bound for the merge: every iteration either consumes
one entry or drops one source. -/
def mergeMeasure (q : List MergeSrc) : Nat :=
  (q.map (fun s => s.entries.length)).sum + q.length

/-- The merge loop of `SizeTieredCompaction`: pop the priority-minimal
source, emit its current entry unless its key equals the key of the
entry emitted last (`entries.back()`), advance the iterator and push
the source back while it has entries.  `acc` holds the emitted entries
in reverse; `fuel` bounds the iteration count (the loop terminates
within `mergeMeasure` iterations, see `mergeLoop` lemmas). -/
def mergeLoop : Nat → List MergeSrc → List Entry → List Entry
  | 0, _, acc => acc.reverse
  | _ + 1, [], acc => acc.reverse
  | fuel + 1, s :: rest, acc =>
    let r := popMinAux s rest
    match r.1.entries with
    | [] => mergeLoop fuel r.2 acc
    | e :: tail =>
      let acc1 :=
        match acc with
        | [] => e :: acc
        | last :: _ => if last.key = e.key then acc else e :: acc
      let q1 := if tail.isEmpty then r.2 else MergeSrc.mk r.1.secondValue tail :: r.2
      mergeLoop fuel q1 acc1

/-- The merged, deduplicated entry stream produced from the given
sources (list position = `second_value` assignment order). -/
def compactionMerge (sources : List MergeSrc) : List Entry :=
  mergeLoop (mergeMeasure sources + 1) sources []

/-- First key of an SST (`(*sst->begin()).key`). -/
def firstKeyOf (sst : List Entry) : Key := (sst.headD default).key

/-- Last key of an SST (`(*sst->rbegin()).key`). -/
def lastKeyOf (sst : List Entry) : Key := (sst.getLastD default).key

/-- The running-minimum update for `min_key`:
`if (min_key.empty() || begin_key < min_key) min_key = begin_key;`.
Note that the source conflates the "not yet set" sentinel (a default
`string_view`) with the empty key. -/
def updateMinKey (minKey beginKey : Key) : Key :=
  if minKey = [] ∨ beginKey < minKey then beginKey else minKey

/-- The running-maximum update for `max_key`:
`if (max_key.empty() || end_key > max_key) max_key = end_key;`. -/
def updateMaxKey (maxKey endKey : Key) : Key :=
  if maxKey = [] ∨ maxKey < endKey then endKey else maxKey

/-- The scan over the next level's SSTs (indices from `i`): an SST
entirely below `min_key` updates `insert_l` to its index; the first SST
entirely above `max_key` sets `insert_r` and stops the scan; every
other SST joins the merge.  Returns `(insert_l, insert_r, overlaps)`
(`none` encodes the initial `-1` of `insert_l`, resp. an untriggered
break). -/
def scanNext (minKey maxKey : Key) : Nat → List (List Entry) →
    Option Nat × Option Nat × List (List Entry)
  | _, [] => (none, none, [])
  | i, sst :: rest =>
    if lastKeyOf sst < minKey then
      let r := scanNext minKey maxKey (i + 1) rest
      (some (r.1.getD i), r.2.1, r.2.2)
    else if maxKey < firstKeyOf sst then
      (none, some i, [])
    else
      let r := scanNext minKey maxKey (i + 1) rest
      (r.1, r.2.1, sst :: r.2.2)

/-- The `min_key` accumulation over the level's SSTs (iterated
newest-first), starting from the empty sentinel. -/
def minKeyOf (srcs : List (List Entry)) : Key :=
  srcs.foldl (fun mk sst => updateMinKey mk (firstKeyOf sst)) []

/-- The `max_key` accumulation over the level's SSTs (iterated
newest-first), starting from the empty sentinel. -/
def maxKeyOf (srcs : List (List Entry)) : Key :=
  srcs.foldl (fun mk sst => updateMaxKey mk (lastKeyOf sst)) []

/-- Wrap the merge inputs as queue sources, assigning `second_value`
by list position (the `value++` of the source). -/
def tagSources (ms : List (List Entry)) : List MergeSrc :=
  ms.enum.map (fun p => MergeSrc.mk p.1 p.2)

/-- The merged SST produced from the level's SSTs (newest first)
followed by the overlapping next-level SSTs. -/
def mergedOf (srcsRev overlaps : List (List Entry)) : List Entry :=
  compactionMerge (tagSources (srcsRev ++ overlaps))

/-- `Manifest::SizeTieredCompaction(level, id)` on the level structure:
collect the level's SSTs newest-first (`rbegin()`→`rend()`, assigning
`second_value` by `value++`), record the min/max key range, create the
next level if missing, scan the next level into left / overlapping /
right parts, merge, and rebuild the next level as
`left ++ [merged] ++ right` while the compacted level becomes empty. -/
def sizeTieredCompactionOne (levels : List (List (List Entry))) (level : Nat) :
    List (List (List Entry)) :=
  let levelL := levels.getD level []
  let srcsRev := levelL.reverse
  let minKey := minKeyOf srcsRev
  let maxKey := maxKeyOf srcsRev
  let levels1 := if level + 1 = levels.length then levels ++ [[]] else levels
  let next := levels1.getD (level + 1) []
  let scan := scanNext minKey maxKey 0 next
  let insertR := scan.2.1.getD next.length
  let overlaps := scan.2.2
  let merged := mergedOf srcsRev overlaps
  let newNext :=
    next.take (match scan.1 with | some i => i + 1 | none => 0) ++
      merged :: next.drop insertR
  (levels1.set level []).set (level + 1) newNext

/-! ### SST and Manifest lookup (`shuaikv/lsm/sst.hpp`, `manifest.hpp`)

`SST::Get` goes through `IndexBlockIndex::Get`: a binary search over
the data blocks' first keys followed by `DataBlockIndex::Get` on the
selected block.  Every SST written by this system has exactly one data
block (both `SST` constructors store an index-block count of 1), so the
index-block search reduces to "miss if the key is below the block's
first key, else probe the block".  `DataBlockIndex::Get` first consults
the per-block bloom filter — `Insert` only ever sets bits, so `Check`
never rejects a key that was inserted when the block was written, and
on a false positive for an absent key the code falls through to the
entry binary search, which misses; the filter is therefore transparent
for the result and elided from `sstGet`. -/

/-- The entry binary search of `DataBlockIndex::Get`:
`while (l < r) { mid = (l+r)/2; if (a[mid].key < key) l = mid+1; else r = mid; }`.
The loop shrinks `r - l` every iteration, so running it with any fuel
`≥ r - l` reproduces the loop exactly (the initial call passes
`es.length`). -/
def lbLoop (es : List Entry) (k : Key) : Nat → Nat → Nat → Nat
  | 0, l, _ => l
  | fuel + 1, l, r =>
    if l < r then
      let mid := (l + r) / 2
      if (es.getD mid default).key < k then lbLoop es k fuel (mid + 1) r
      else lbLoop es k fuel l mid
    else l

/-- `DataBlockIndex::Get` after the bloom check: binary-search the
entries, then demand exact key equality. -/
def dataBlockGet (es : List Entry) (k : Key) : Option Value :=
  let r := lbLoop es k es.length 0 es.length
  if r = es.length then none
  else if (es.getD r default).key = k then some ((es.getD r default).value)
  else none

/-- `SST::Get` for the single-data-block SSTs this system writes. -/
def sstGet (sst : List Entry) (k : Key) : Option Value :=
  match sst with
  | [] => none
  | e0 :: _ => if k < e0.key then none else dataBlockGet sst k

/-- The first-key binary search of `Manifest::Level::Get` for levels
`≥ 1`: `if (ssts_[mid]->key() > key) r = mid; else l = mid + 1;`.
Fueled like `lbLoop`; the initial call passes the level's SST count. -/
def ubLoop (fks : List Key) (k : Key) : Nat → Nat → Nat → Nat
  | 0, l, _ => l
  | fuel + 1, l, r =>
    if l < r then
      let mid := (l + r) / 2
      if k < fks.getD mid default then ubLoop fks k fuel l mid
      else ubLoop fks k fuel (mid + 1) r
    else l

/-- `Manifest::Level::Get`: level 0 scans its SSTs newest-first
(`rbegin()`→`rend()`); higher levels binary-search the first keys and
probe the single candidate `ssts_[l - 1]` (miss if `l == 0`). -/
def levelGet (lvlIdx : Nat) (ssts : List (List Entry)) (k : Key) : Option Value :=
  if lvlIdx = 0 then ssts.reverse.findSome? (fun sst => sstGet sst k)
  else
    let l := ubLoop (ssts.map firstKeyOf) k ssts.length 0 ssts.length
    if l = 0 then none else sstGet (ssts.getD (l - 1) []) k

/-! ### The flush path (`shuaikv/db.hpp` / `lsm/sst.hpp`)

`DB::ToSST` always builds the SST with the compressed-path constructor
`SST(MemeTable&, size_t, CompressionConfig)`: every MemTable entry is
fed to `CompressedBlockBuilder::Add`, then `Build()` serialises the
block.  The byte accounting of `Build` is modelled below; `size_t`
is 8 bytes, `uint8_t` is 1 byte. -/

/-- `CompressedBlockBuilder::Add`: one call appends
`2 * sizeof(size_t) + key.size() + value.size()` bytes to
`raw_data_` (two length words, then the key bytes, then the value
bytes). -/
def entryRawSize (e : Entry) : Nat := 2 * 8 + e.key.length + e.value.length

/-- `raw_data_.size()` after the constructor's loop has added every
MemTable entry. -/
def builderRawSize (es : List Entry) : Nat := (es.map entryRawSize).sum

/-- `Build`'s `header_size`:
`sizeof(size_t) + sizeof(uint8_t) + bloom_size + sizeof(size_t)`
(the size word, the flags byte, the serialised bloom filter, the
count word), with the bloom filter's `binary_size()` left as a
parameter. -/
def buildHeaderSize (bloomSize : Nat) : Nat := 8 + 1 + bloomSize + 8

/-- The bytes `Build` allocates for its output:
`result.resize(sizeof(size_t) + sizeof(uint8_t) + header_size)` —
`raw_data_.size()` is not part of the allocation. -/
def buildAllocSize (bloomSize : Nat) : Nat := 8 + 1 + buildHeaderSize bloomSize

/-- One past the last byte `Build` writes into `result`: after the
size word (offset 0), the flags byte (offset 8), the bloom filter
(offset 9) and the count word (offset `9 + bloom_size`), the final
`memcpy` copies all of `raw_data_` starting at offset
`sizeof(size_t) + sizeof(uint8_t) + bloom_size + sizeof(size_t)`. -/
def buildWriteEnd (bloomSize rawSize : Nat) : Nat := 8 + 1 + bloomSize + 8 + rawSize

/-! ### Derived lookup notions used by the statements -/

/-- Strict key order on entries. -/
abbrev keyLt (a b : Entry) : Prop := a.key < b.key

/-- The reversed key order (used for accumulators that grow at the
front). -/
abbrev keyGt (a b : Entry) : Prop := b.key < a.key

/-- Range order on SSTs: `a` ends strictly before `b` begins.  A level
`≥ 1` whose SST list is a chain of this relation is range-disjoint and
sorted by first key. -/
abbrev sstBelow (a b : List Entry) : Prop := lastKeyOf a < firstKeyOf b

/-- Plain association lookup: the first entry with the key wins
(order-insensitive composition under `++`). -/
def assocFind (l : List Entry) (k : Key) : Option Value :=
  (l.find? (fun e => e.key == k)).map Entry.value

/-- The overlay of a stack of entry lists: the first list (in priority
order) whose lookup hits wins. -/
def overlayFind (ms : List (List Entry)) (k : Key) : Option Value :=
  ms.findSome? (fun m => skipFind m k)

/-- Among the queue sources containing `k`, the one with the smallest
`second_value` (the one whose entry the merge emits for `k`). -/
def srcChoose : List MergeSrc → Key → Option MergeSrc
  | [], _ => none
  | s :: rest, k =>
    match srcChoose rest k with
    | none => if (skipFind s.entries k).isSome then some s else none
    | some b =>
      if (skipFind s.entries k).isSome ∧ s.secondValue < b.secondValue
      then some s else some b

/-- The value the merge keeps for `k`: the minimal-`second_value`
source's value. -/
def srcLookup (q : List MergeSrc) (k : Key) : Option Value :=
  (srcChoose q k).bind (fun s => skipFind s.entries k)

/-! ### Concrete states used by counterexamples and witnesses -/

/-- An empty ring buffer. -/
def raftQueueEmpty : RingBufferQueue RaftEntry := ⟨fun _ => none, 0, 0⟩

/-- A freshly started RaftLog (no `raft_log_meta` file). -/
def raftLogC3 : RaftLog := ⟨raftQueueEmpty, 0, 0, 0, 0, false⟩

/-- A replicated entry whose piggy-backed `commited` (5) exceeds the
index it will occupy (1). -/
def entryC3 : RaftEntry := ⟨1, 1, [], [], 0, 5⟩

/-- A follower log holding two entries (indices 1, 2) with
`commited = 1`. -/
def raftLogC5 : RaftLog := ⟨⟨fun _ => none, 2, 0⟩, 2, 1, 1, 0, false⟩

/-- An incoming entry at index 2 while the follower is at index 2. -/
def entryC5 : RaftEntry := ⟨2, 1, [], [], 0, 0⟩

/-- A cache configuration admitting blocks larger than the capacity:
capacity 10 bytes, max block size 100 bytes, min utilization 0. -/
def cfgC7 : CacheConfig := ⟨10, 1, 100, 0, 0, 1⟩

/-- An empty block cache. -/
def stC7 : CacheState := ⟨[], 0, 0, 0, 0⟩

/-- A 50-byte block. -/
def dataC7 : List Nat := List.replicate 50 7

/-- Level-L SST `{"c" ↦ "1"}` (bytes spelled out). -/
def sstS2 : List Entry := [⟨[99], [49]⟩]

/-- Level-(L+1) SST `{"b" ↦ x, "z" ↦ y}`: its range overlaps the next
SST of the level (the level is not range-disjoint). -/
def sstO2 : List Entry := [⟨[98], [11]⟩, ⟨[122], [22]⟩]

/-- Level-(L+1) SST `{"d" ↦ z}`. -/
def sstR2 : List Entry := [⟨[100], [33]⟩]

/-- Manifest levels for the C2 counterexample. -/
def levelsC2 : List (List (List Entry)) := [[sstS2], [sstO2, sstR2]]

/-- A well-formed two-level manifest (sorted, non-empty keys, next
level range-disjoint) used by the C2 witness. -/
def levelsC2w : List (List (List Entry)) :=
  [[[Entry.mk [2] [9]]], [[Entry.mk [1] [7]], [Entry.mk [3] [8]]]]

/-- A small initialised bloom filter (2 seeds, 5 bits, one word). -/
def bloomW : BloomFilter := ⟨2, 5, [3, 7], [9]⟩

/-- A follower log at index 3 with `commited = 1` (three live entries). -/
def raftLogC5w : RaftLog := ⟨⟨fun _ => none, 3, 0⟩, 3, 1, 1, 0, false⟩

/-- An incoming entry at index 2 (matches the post-truncation index 1 + 1). -/
def entryC5w : RaftEntry := ⟨2, 1, [], [], 0, 0⟩

/-!
## Theorems

The remainder of the file proves or refutes the frozen claims about the
embedded definitions, starting with supporting lemmas.
-/

/-! ### C9: `rand_level` has no cap at 32 -/

/-- C9 (code bug): `rand_level()` does return the number of successful
25%-probability trials plus one, but it is not capped: on a draw
sequence whose first 32 values are divisible by 4 it returns 33, while
`Put`/`Delete` index fixed 32-slot path arrays under the assumption the
level never exceeds 32. -/
theorem randLevel_exceeds_cap :
    randLevel (List.replicate 32 0 ++ [1]) = 32 + 1 ∧
    32 < randLevel (List.replicate 32 0 ++ [1]) := by
  constructor <;> decide

/-! ### C4: the vote handler -/

/-- C4: `Pod::Vote` grants iff `req.term ≥ term_` and, at equal terms,
the candidate's last log index is at least the local one and no vote
was cast this term; at a strictly greater term it steps down to
Follower, adopts the term, and grants (ending with `voted = true`); an
equal-term request with a shorter log is rejected. -/
theorem vote_grant_characterization (p : PodState) (rt : Int) (ri : Nat) :
    ((Pod.vote p rt ri).1 = true ↔
      p.term ≤ rt ∧ (rt = p.term → p.logIndex ≤ ri ∧ p.voted = false)) ∧
    (p.term < rt →
      Pod.vote p rt ri =
        (true, { term := rt, voted := true, status := PodStatus.Follower,
                 logIndex := p.logIndex })) ∧
    (rt = p.term → ri < p.logIndex → (Pod.vote p rt ri).1 = false) := by
  unfold Pod.vote
  split_ifs with h1 h2 h3 h4 <;> simp_all <;> omega

/-- Witness for C4 at a concrete follower state. -/
theorem vote_grant_characterization_w :
    (1 : Int) < 2 ∧
    Pod.vote ⟨1, false, PodStatus.Leader, 5⟩ 2 0 =
      (true, { term := 2, voted := true, status := PodStatus.Follower,
               logIndex := 5 }) :=
  ⟨by decide, (vote_grant_characterization ⟨1, false, PodStatus.Leader, 5⟩ 2 0).2.1 (by decide)⟩

/-! ### C6: local `RaftLog::Put` and the full ring -/

/-- C6: `RaftLog::Put(key, value, term, idx)` on a full ring returns
failure with the log (counters, cursors and stored entries) exactly as
before; otherwise (when not stopped) it appends an entry at
`index_ + 1`, reports that index, and leaves `commited_` unchanged. -/
theorem raftLog_put_ring (l : RaftLog) (k : Key) (v : Value) (t : Int) :
    ((l.queue.head + 1) % ringBufferSize = l.queue.tail →
      l.putLocal k v t = (l, none)) ∧
    (l.stopped = false →
      (l.queue.head + 1) % ringBufferSize ≠ l.queue.tail →
      (l.putLocal k v t).2 = some (l.index + 1) ∧
      (l.putLocal k v t).1.index = l.index + 1 ∧
      (l.putLocal k v t).1.commited = l.commited ∧
      (l.putLocal k v t).1.lastApplied = l.lastApplied ∧
      (l.putLocal k v t).1.startIndex = l.startIndex ∧
      (l.putLocal k v t).1.queue.head = l.queue.head + 1 ∧
      (l.putLocal k v t).1.queue.tail = l.queue.tail ∧
      (l.putLocal k v t).1.queue.data (l.queue.head + 1) =
        some ⟨l.index + 1, t, k, v, 0, 0⟩) := by
  unfold RaftLog.putLocal RingBufferQueue.pushBack
  constructor
  · intro hfull
    split_ifs <;> simp_all
  · intro hstop hfull
    simp only [hstop, Bool.false_eq_true, if_false, hfull, if_neg hfull]
    simp [Function.update_same]

/-- Witness for C6: appending to a fresh log stores index 1. -/
theorem raftLog_put_ring_w :
    raftLogC3.stopped = false ∧
    (raftLogC3.queue.head + 1) % ringBufferSize ≠ raftLogC3.queue.tail ∧
    (raftLogC3.putLocal [1] [2] 3).2 = some 1 ∧
    (raftLogC3.putLocal [1] [2] 3).1.index = 1 := by
  have h := (raftLog_put_ring raftLogC3 [1] [2] 3).2 (by decide) (by decide)
  exact ⟨by decide, by decide, h.1, h.2.1⟩

/-! ### C3: the RaftLog ordering invariant -/

/-- C3 counterexample: replicated `RaftLog::Put(Entry&)` adopts the
entry's piggy-backed `commited` wholesale, so an entry carrying
`commited = 5` appended to a fresh well-formed log leaves
`commited_ = 5 > index_ = 1`, violating
`start_index ≤ last_applied ≤ commited ≤ index`. -/
theorem raftLog_invariant_cex :
    raftLogC3.wf ∧
    entryC3.index = raftLogC3.index + 1 ∧
    (raftLogC3.putEntry entryC3).2 = true ∧
    ¬ (raftLogC3.putEntry entryC3).1.wf ∧
    (raftLogC3.putEntry entryC3).1.commited = 5 ∧
    (raftLogC3.putEntry entryC3).1.index = 1 := by
  refine ⟨by decide, by decide, ?_, ?_, ?_, ?_⟩ <;> decide

/-- C3 (amended): every RaftLog operation preserves
`start_index ≤ last_applied ≤ commited ≤ index`, except that the
replicated put needs the entry's carried `commited` not to exceed the
new index, and reset needs a target at least `commited` (its only call
site passes `commited` itself); `commited` and `last_applied` never
decrease under any of the operations. -/
theorem raftLog_invariant_preservation (l : RaftLog) (hwf : l.wf) :
    (∀ (k : Key) (v : Value) (t : Int),
      (l.putLocal k v t).1.wf ∧
      l.commited ≤ (l.putLocal k v t).1.commited ∧
      l.lastApplied ≤ (l.putLocal k v t).1.lastApplied) ∧
    (∀ e : RaftEntry,
      l.commited ≤ (l.putEntry e).1.commited ∧
      l.lastApplied ≤ (l.putEntry e).1.lastApplied ∧
      (e.commited ≤ l.index + 1 → (l.putEntry e).1.wf)) ∧
    (∀ tgt, l.commited ≤ tgt →
      (l.reset tgt).wf ∧
      l.commited ≤ (l.reset tgt).commited ∧
      l.lastApplied ≤ (l.reset tgt).lastApplied) ∧
    (∀ c, (l.updateCommit c).wf ∧
      l.commited ≤ (l.updateCommit c).commited ∧
      l.lastApplied ≤ (l.updateCommit c).lastApplied) ∧
    (l.applyStep.wf ∧
      l.commited ≤ l.applyStep.commited ∧
      l.lastApplied ≤ l.applyStep.lastApplied) := by
  obtain ⟨h1, h2, h3⟩ := hwf
  refine ⟨?_, ?_, ?_, ?_, ?_⟩
  · intro k v t
    unfold RaftLog.putLocal RingBufferQueue.pushBack
    split_ifs <;> simp_all [RaftLog.wf] <;> omega
  · intro e
    unfold RaftLog.putEntry RingBufferQueue.pushBack
    split_ifs <;> simp_all [RaftLog.wf] <;> omega
  · intro tgt htgt
    unfold RaftLog.reset RingBufferQueue.truncate
    split_ifs <;> simp_all [RaftLog.wf] <;> omega
  · intro c
    unfold RaftLog.updateCommit
    simp_all [RaftLog.wf] <;> omega
  · unfold RaftLog.applyStep
    split_ifs <;> simp_all [RaftLog.wf] <;> omega

/-- Witness for C3 (amended) on a concrete log. -/
theorem raftLog_invariant_preservation_w :
    raftLogC5.wf ∧
    (raftLogC5.updateCommit 7).wf ∧
    ((raftLogC5.reset raftLogC5.commited).wf ∧ raftLogC5.commited ≤ 1) :=
  ⟨by decide,
   ((raftLog_invariant_preservation raftLogC5 (by decide)).2.2.2.1 7).1,
   ⟨((raftLog_invariant_preservation raftLogC5 (by decide)).2.2.1
      raftLogC5.commited (le_refl _)).1, by decide⟩⟩

/-! ### C5: the follower append truncation window -/

/-- C5 counterexample: with `commited = 1 < index = 2` and
`leader_commit = 2` — inside the claimed half-open-above interval
`(commited, index]` — a misaligned entry at index 2 is rejected with
code `-2` and no truncation, although the claim prescribes truncating
to `commited` and re-appending (which would succeed and return 0). -/
theorem updateRaftLog_cex :
    raftLogC5.commited < raftLogC5.index ∧
    raftLogC5.commited < 2 ∧ 2 ≤ raftLogC5.index ∧
    entryC5.index ≠ raftLogC5.index + 1 ∧
    updateRaftLog raftLogC5 [entryC5] 2 = (raftLogC5, -2) ∧
    (updateRaftLog raftLogC5 [entryC5] 2).2 ≠ 0 :=
  ⟨by decide, by decide, by decide, by decide, rfl, by decide⟩

/-- C5 (amended): on a misaligned single-entry append, the follower
truncates to `commited` and retries exactly when `leader_commit` lies
in the open interval `(commited, index)` — the endpoint
`leader_commit = index` does not trigger truncation; in every other
misaligned case it returns `-2` with the log untouched. -/
theorem updateRaftLog_mismatch (l : RaftLog) (e : RaftEntry) (lc : Nat)
    (hmis : e.index ≠ l.index + 1) :
    (lc < l.index ∧ l.commited < lc →
      updateRaftLog l [e] lc =
        if e.index = (l.reset l.commited).index + 1
        then (((l.reset l.commited).putEntry e).1, 0)
        else (l.reset l.commited, -2)) ∧
    (¬ (lc < l.index ∧ l.commited < lc) →
      updateRaftLog l [e] lc = (l, -2)) := by
  constructor
  · intro hwin
    unfold updateRaftLog
    simp only [hmis, if_pos hwin, ite_not, if_true]
    split_ifs <;> simp_all
  · intro hwin
    unfold updateRaftLog
    simp only [hmis, if_neg hwin, ite_not, if_true]
    split_ifs with h <;> simp_all

/-- Witness for C5 (amended): `leader_commit = 2` strictly inside
`(1, 3)` triggers the truncation to `commited = 1`, after which the
entry at index 2 appends and the handler returns 0. -/
theorem updateRaftLog_mismatch_w :
    entryC5w.index ≠ raftLogC5w.index + 1 ∧
    (updateRaftLog raftLogC5w [entryC5w] 2).2 = 0 ∧
    (updateRaftLog raftLogC5w [entryC5w] 2).1.index = 2 := by
  have h := (updateRaftLog_mismatch raftLogC5w entryC5w 2 (by decide)).1
    ⟨by decide, by decide⟩
  refine ⟨by decide, ?_, ?_⟩ <;> rw [h] <;> rfl

/-! ### C10: `Put` on an existing key -/

/-- The overwrite report of `skipPut` coincides with the lookup: the
two walks take identical turns. -/
theorem skipPut_snd (l : List Entry) (k : Key) (v : Value) :
    (skipPut l k v).2 = skipFind l k := by
  induction l with
  | nil => simp [skipPut, skipFind]
  | cons e rest ih =>
    simp only [skipPut, skipFind]
    split_ifs <;> simp_all

/-- A hit names an entry of the list. -/
theorem skipFind_mem (l : List Entry) (k : Key) (v : Value) :
    skipFind l k = some v → ∃ e ∈ l, e.key = k ∧ e.value = v := by
  induction l with
  | nil => simp [skipFind]
  | cons e rest ih =>
    simp only [skipFind]
    split_ifs with h1 h2
    · intro h
      obtain ⟨e1, he1, hk, hv⟩ := ih h
      exact ⟨e1, List.mem_cons_of_mem _ he1, hk, hv⟩
    · intro h
      exact ⟨e, List.mem_cons_self _ _, h2, Option.some.inj h⟩
    · intro h
      exact absurd h (by simp)

/-- A key absent from the list is never found (no sortedness needed). -/
theorem skipFind_eq_none (l : List Entry) (k : Key)
    (h : ∀ e ∈ l, e.key ≠ k) : skipFind l k = none := by
  induction l with
  | nil => simp [skipFind]
  | cons e rest ih =>
    simp only [skipFind]
    have hk := h e (List.mem_cons_self _ _)
    split_ifs with h1
    · exact ih fun e1 he1 => h e1 (List.mem_cons_of_mem _ he1)
    · rfl

/-- An overwrite leaves the key sequence unchanged. -/
theorem skipPut_keys_of_found (l : List Entry) (k : Key) (v old : Value)
    (h : skipFind l k = some old) :
    (skipPut l k v).1.map Entry.key = l.map Entry.key := by
  induction l with
  | nil => simp [skipFind] at h
  | cons e rest ih =>
    simp only [skipFind] at h
    simp only [skipPut]
    split_ifs at h ⊢ with h1 h2
    · simp [ih h]
    · simp [h2]

/-- After `Put`, the key reads back the written value. -/
theorem skipFind_skipPut_self (l : List Entry) (k : Key) (v : Value) :
    skipFind (skipPut l k v).1 k = some v := by
  induction l with
  | nil => simp [skipPut, skipFind]
  | cons e rest ih =>
    simp only [skipPut]
    split_ifs with h1 h2
    · simpa [skipFind, h1] using ih
    · simp [skipFind]
    · simp [skipFind]

/-- `Put` changes no other key's lookup (no sortedness needed). -/
theorem skipFind_skipPut_frame (l : List Entry) (k : Key) (v : Value)
    (k1 : Key) (hne : k1 ≠ k) :
    skipFind (skipPut l k v).1 k1 = skipFind l k1 := by
  induction l with
  | nil =>
    simp only [skipPut, skipFind]
    split_ifs with h1 h2
    · rfl
    · exact absurd h2.symm hne
    · rfl
  | cons e rest ih =>
    simp only [skipPut]
    split_ifs with h1 h2
    · simp only [skipFind]
      split_ifs <;> simp_all
    · show skipFind (⟨k, v⟩ :: rest) k1 = skipFind (e :: rest) k1
      by_cases h3 : k < k1
      · simp only [skipFind, if_pos h3, h2]
      · have hnk : ¬ (k = k1) := fun hc => hne hc.symm
        have hnk2 : ¬ (e.key = k1) := h2 ▸ hnk
        have hnl : ¬ (e.key < k1) := h2 ▸ h3
        simp only [skipFind, if_neg h3, if_neg hnk, if_neg hnl, if_neg hnk2]
    · have hk : k < e.key :=
        lt_of_le_of_ne (not_lt.mp h1) (fun hc => h2 hc.symm)
      show skipFind (⟨k, v⟩ :: e :: rest) k1 = skipFind (e :: rest) k1
      by_cases h3 : k < k1
      · simp only [skipFind, if_pos h3]
      · have hk1 : k1 < k := lt_of_le_of_ne (not_lt.mp h3) hne
        have hnk : ¬ (k = k1) := fun hc => hne hc.symm
        have hnl : ¬ (e.key < k1) := not_lt.mpr (le_of_lt (lt_trans hk1 hk))
        have hnk2 : ¬ (e.key = k1) := Ne.symm (ne_of_lt (lt_trans hk1 hk))
        simp only [skipFind, if_neg h3, if_neg hnk, if_neg hnl, if_neg hnk2]

/-- `Put` never empties the list. -/
theorem skipPut_ne_nil (l : List Entry) (k : Key) (v : Value) :
    (skipPut l k v).1 ≠ [] := by
  cases l with
  | nil => simp [skipPut]
  | cons e rest =>
    simp only [skipPut]
    split_ifs <;> simp

/-- C10: `ConcurrentSkipList::Put` on a key already present overwrites
only that key's value and shifts `binary_size_` by the length
difference: the entry count, the key sequence, and all other keys'
lookups are unchanged, and the key reads back the new value. -/
theorem memtable_put_existing (m : MemTable) (k : Key) (v old : Value)
    (hfound : skipFind m.entries k = some old)
    (hlen : old.length ≤ m.binarySize) :
    (m.put k v).size = m.size ∧
    (m.put k v).entries.map Entry.key = m.entries.map Entry.key ∧
    (m.put k v).binarySize + old.length = m.binarySize + v.length ∧
    (m.put k v).get k = some v ∧
    ∀ k1, k1 ≠ k → (m.put k v).get k1 = m.get k1 := by
  have hsnd := skipPut_snd m.entries k v
  rw [hfound] at hsnd
  have hput : m.put k v =
      ⟨(skipPut m.entries k v).1, m.size, m.binarySize + v.length - old.length⟩ := by
    unfold MemTable.put
    rcases hsp : skipPut m.entries k v with ⟨es, r2⟩
    rw [hsp] at hsnd
    simp only at hsnd
    rw [hsnd]
  rw [hput]
  refine ⟨rfl, ?_, ?_, ?_, ?_⟩
  · exact skipPut_keys_of_found m.entries k v old hfound
  · show m.binarySize + v.length - old.length + old.length =
      m.binarySize + v.length
    omega
  · exact skipFind_skipPut_self m.entries k v
  · intro k1 h1
    exact skipFind_skipPut_frame m.entries k v k1 h1

/-- Witness for C10 on a one-entry MemTable. -/
theorem memtable_put_existing_w :
    skipFind (⟨[⟨[1], [2, 3]⟩], 1, 3⟩ : MemTable).entries [1] = some [2, 3] ∧
    ((⟨[⟨[1], [2, 3]⟩], 1, 3⟩ : MemTable).put [1] [9]).size = 1 ∧
    ((⟨[⟨[1], [2, 3]⟩], 1, 3⟩ : MemTable).put [1] [9]).get [1] = some [9] :=
  ⟨by decide,
   (memtable_put_existing ⟨[⟨[1], [2, 3]⟩], 1, 3⟩ [1] [9] [2, 3]
      (by decide) (by decide)).1,
   (memtable_put_existing ⟨[⟨[1], [2, 3]⟩], 1, 3⟩ [1] [9] [2, 3]
      (by decide) (by decide)).2.2.2.1⟩

/-! ### C8: BloomFilter save/load round-trip -/

/-- C8: for an initialised filter, `Load ∘ Save` restores exactly the
parameters (`hash_num`, `length`, seeds, bit array), a second `Save` is
byte-identical, and `Check` verdicts coincide on every key. -/
theorem bloom_roundtrip (f : BloomFilter) (hwf : f.wf) :
    BloomFilter.load (BloomFilter.save f) = f ∧
    BloomFilter.save (BloomFilter.load (BloomFilter.save f)) = BloomFilter.save f ∧
    ∀ s : Key, (BloomFilter.load (BloomFilter.save f)).check s = f.check s := by
  obtain ⟨hseeds, hdata⟩ := hwf
  have hload : BloomFilter.load (BloomFilter.save f) = f := by
    cases f with
    | mk hashNum length seeds data =>
      simp only at hseeds hdata
      simp only [BloomFilter.load, BloomFilter.save]
      have hd0 : (hashNum :: length :: (seeds ++ 0 :: data)).getD 0 0 = hashNum := rfl
      have hd1 : (hashNum :: length :: (seeds ++ 0 :: data)).getD 1 0 = length := rfl
      rw [hd0, hd1]
      have htake : ((hashNum :: length :: (seeds ++ 0 :: data)).drop 2).take hashNum
          = seeds := by
        show (seeds ++ 0 :: data).take hashNum = seeds
        rw [← hseeds]
        exact List.take_left seeds (0 :: data)
      have hdropAll : (hashNum :: length :: (seeds ++ 0 :: data)).drop (2 + hashNum + 1)
          = data := by
        have e1 : 2 + hashNum + 1 = hashNum + 3 := by omega
        rw [e1]
        show (seeds ++ 0 :: data).drop (hashNum + 1) = data
        have hsplit : seeds ++ 0 :: data = (seeds ++ [0]) ++ data := by simp
        have hlen : (seeds ++ [0]).length = hashNum + 1 := by simp [hseeds]
        rw [hsplit, ← hlen, List.drop_left]
      rw [htake, hdropAll, ← hdata, List.take_length]
  exact ⟨hload, by rw [hload], fun s => by rw [hload]⟩

/-- Witness for C8 on a concrete filter. -/
theorem bloom_roundtrip_w :
    bloomW.wf ∧
    BloomFilter.load (BloomFilter.save bloomW) = bloomW ∧
    (BloomFilter.load (BloomFilter.save bloomW)).check [5] = bloomW.check [5] :=
  ⟨by decide, (bloom_roundtrip bloomW (by decide)).1,
   (bloom_roundtrip bloomW (by decide)).2.2 [5]⟩

/-! ### C7: BlockCache::Put -/

/-- The eviction loop keeps the stats in sync and, starting from a
synced state, ends with `current_size + n` below the capacity unless it
ran the cache empty — so below `max(max_capacity, n)` either way. -/
theorem evictLoop_spec (cfg : CacheConfig) (n : Nat) :
    ∀ (fuel : Nat) (st : CacheState), st.lru.length ≤ fuel → cacheSync st →
      cacheSync (evictLoop cfg n fuel st) ∧
      (evictLoop cfg n fuel st).currentSize + n ≤ max cfg.maxCapacity n := by
  intro fuel
  induction fuel with
  | zero =>
    intro st hlen hsync
    have hnil : st.lru = [] := List.length_eq_zero.mp (Nat.le_zero.mp hlen)
    have hzero : st.currentSize = 0 := by
      obtain ⟨h1, _⟩ := hsync
      rw [h1, hnil]
      rfl
    refine ⟨hsync, ?_⟩
    show st.currentSize + n ≤ max cfg.maxCapacity n
    omega
  | succ fuel ih =>
    intro st hlen hsync
    rw [evictLoop]
    split_ifs with hcond
    · split
      · rename_i hl
        have hnil : st.lru = [] := List.getLast?_eq_none_iff.mp hl
        have hzero : st.currentSize = 0 := by
          obtain ⟨h1, _⟩ := hsync
          rw [h1, hnil]
          rfl
        exact ⟨hsync, by omega⟩
      · rename_i b hl
        have hne : st.lru ≠ [] := by
          intro hnil
          rw [hnil] at hl
          simp at hl
        have hb : b = st.lru.getLast hne := by
          have h2 := List.getLast?_eq_getLast st.lru hne
          rw [hl] at h2
          injection h2
        obtain ⟨h1, h2⟩ := hsync
        have hsum : (st.lru.map (fun c => c.data.length)).sum =
            (st.lru.dropLast.map (fun c => c.data.length)).sum + b.data.length := by
          conv_lhs => rw [← List.dropLast_append_getLast hne]
          rw [List.map_append, List.sum_append, ← hb]
          simp
        have hlen2 : st.lru.dropLast.length ≤ fuel := by
          rw [List.length_dropLast]
          have := List.length_pos.mpr hne
          omega
        have hsync2 : cacheSync
            { st with
                lru := st.lru.dropLast
                currentSize := st.currentSize - b.data.length
                currentCount := st.currentCount - 1
                evictedCount := st.evictedCount + 1 } := by
          constructor
          · simp only
            omega
          · simp only [List.length_dropLast]
            have := List.length_pos.mpr hne
            omega
        exact ih _ hlen2 hsync2
    · refine ⟨hsync, ?_⟩
      push_neg at hcond
      omega

/-- C7 counterexample: with `max_capacity = 10`, `max_block_size = 100`
and zero `min_utilization`, a 50-byte block into an empty cache is
accepted (no rejection condition holds), the eviction loop stops on the
empty list, and the cache ends with 50 bytes — above `max_capacity`. -/
theorem blockCache_put_cex :
    (cachePut cfgC7 stC7 0 0 dataC7).1 = true ∧
    (cachePut cfgC7 stC7 0 0 dataC7).2.currentSize = 50 ∧
    cfgC7.maxCapacity = 10 ∧
    dataC7.length ≤ cfgC7.maxBlockSize ∧
    ¬ (dataC7.length * cfgC7.minUtilDen < cfgC7.minUtilNum * cfgC7.minBlockSize) ∧
    cacheSync stC7 := by
  refine ⟨?_, ?_, ?_, ?_, ?_, ?_⟩ <;> decide

/-- C7 (amended): `Put` rejects (returning `false`, inserting nothing)
exactly when the block is empty, larger than `max_block_size`, or
under-utilised; an already-cached key is overwritten in place and moved
to the MRU position with no eviction and no `current_size` adjustment;
a new key is inserted at MRU after evicting LRU entries until
`current_size + len ≤ max_capacity` and the count constraint hold or
the cache is empty, leaving the byte counter at most
`max(max_capacity, len)` — not necessarily `max_capacity`. -/
theorem blockCache_put_characterization (cfg : CacheConfig) (st : CacheState)
    (sstId blockOffset : Nat) (data : List Nat) (hsync : cacheSync st) :
    ((cachePut cfg st sstId blockOffset data).1 = false ↔
      data.length = 0 ∨ cfg.maxBlockSize < data.length ∨
      data.length * cfg.minUtilDen < cfg.minUtilNum * cfg.minBlockSize) ∧
    ((cachePut cfg st sstId blockOffset data).1 = false →
      (cachePut cfg st sstId blockOffset data).2.lru = st.lru) ∧
    (∀ b, st.lru.find? (fun c => c.key == makeKey sstId blockOffset) = some b →
      ¬ (data.length = 0 ∨ cfg.maxBlockSize < data.length ∨
         data.length * cfg.minUtilDen < cfg.minUtilNum * cfg.minBlockSize) →
      (cachePut cfg st sstId blockOffset data).2.lru =
        ⟨b.sstId, b.blockOffset, data⟩ ::
          st.lru.filter (fun c => c.key != makeKey sstId blockOffset) ∧
      (cachePut cfg st sstId blockOffset data).2.currentSize = st.currentSize) ∧
    (st.lru.find? (fun c => c.key == makeKey sstId blockOffset) = none →
      ¬ (data.length = 0 ∨ cfg.maxBlockSize < data.length ∨
         data.length * cfg.minUtilDen < cfg.minUtilNum * cfg.minBlockSize) →
      (cachePut cfg st sstId blockOffset data).2.lru.head? =
        some ⟨sstId, blockOffset, data⟩ ∧
      (cachePut cfg st sstId blockOffset data).2.currentSize ≤
        max cfg.maxCapacity data.length) := by
  simp only [cachePut]
  split_ifs with h1 h2 h3
  · simp_all
  · simp_all
  · simp_all
  · have hrej : ¬ (data.length = 0 ∨ cfg.maxBlockSize < data.length ∨
        data.length * cfg.minUtilDen < cfg.minUtilNum * cfg.minBlockSize) := by
      push_neg
      exact ⟨h1, not_lt.mp h2, not_lt.mp h3⟩
    cases hf : st.lru.find? (fun c => c.key == makeKey sstId blockOffset) with
    | some b =>
      refine ⟨iff_of_false (by simp) hrej, ?_, ?_, ?_⟩
      · intro hcon
        exact absurd hcon (by simp)
      · intro b1 hb1 _
        injection hb1 with hb1
        subst hb1
        exact ⟨rfl, rfl⟩
      · intro hcon
        exact absurd hcon (by simp)
    | none =>
      refine ⟨iff_of_false (by simp) hrej, ?_, ?_, ?_⟩
      · intro hcon
        exact absurd hcon (by simp)
      · intro b1 hb1
        exact absurd hb1 (by simp)
      · intro _ _
        have hev : cacheSync (evictIfNeeded cfg st data.length) ∧
            (evictIfNeeded cfg st data.length).currentSize + data.length ≤
              max cfg.maxCapacity data.length :=
          evictLoop_spec cfg data.length st.lru.length st (le_refl _) hsync
        refine ⟨rfl, ?_⟩
        show (evictIfNeeded cfg st data.length).currentSize + data.length ≤
          max cfg.maxCapacity data.length
        omega

/-- Witness for C7 (amended): inserting a fresh 50-byte block into the
empty cache lands at MRU with the byte counter below
`max(max_capacity, 50)`. -/
theorem blockCache_put_characterization_w :
    cacheSync stC7 ∧
    (cachePut cfgC7 stC7 0 0 dataC7).2.lru.head? = some ⟨0, 0, dataC7⟩ ∧
    (cachePut cfgC7 stC7 0 0 dataC7).2.currentSize ≤ max cfgC7.maxCapacity dataC7.length := by
  have h := (blockCache_put_characterization cfgC7 stC7 0 0 dataC7
    (by decide)).2.2.2 (by decide) (by decide)
  exact ⟨by decide, h.1, h.2⟩

/-! ### C2 groundwork: sorted-list lookups -/

instance : IsTrans Entry keyLt := ⟨fun _ _ _ h1 h2 => lt_trans h1 h2⟩

/-- Sorted lists are pairwise-increasing. -/
theorem chain_keyLt_pairwise {l : List Entry} (h : List.Chain' keyLt l) :
    List.Pairwise keyLt l :=
  List.chain'_iff_pairwise.mp h

/-- Association lookup distributes over concatenation. -/
theorem assocFind_append (l1 l2 : List Entry) (k : Key) :
    assocFind (l1 ++ l2) k = (assocFind l1 k).or (assocFind l2 k) := by
  unfold assocFind
  rw [List.find?_append]
  cases List.find? (fun e => e.key == k) l1 <;> simp

/-- On a singleton. -/
theorem assocFind_singleton (e : Entry) (k : Key) :
    assocFind [e] k = if e.key = k then some e.value else none := by
  by_cases h : e.key = k <;> simp [assocFind, List.find?_cons, h]

/-- A present key is found. -/
theorem assocFind_isSome_of_mem {l : List Entry} {e : Entry} (he : e ∈ l) :
    (assocFind l e.key).isSome := by
  unfold assocFind
  have hs : (List.find? (fun e1 => e1.key == e.key) l).isSome := by
    rw [List.find?_isSome]
    exact ⟨e, he, by simp⟩
  cases hf : List.find? (fun e1 => e1.key == e.key) l with
  | none => rw [hf] at hs; simp at hs
  | some x => simp [hf]

/-- On a sorted list the walk-based lookup agrees with association
lookup. -/
theorem skipFind_eq_assocFind {l : List Entry} (h : List.Chain' keyLt l)
    (k : Key) : skipFind l k = assocFind l k := by
  induction l with
  | nil => simp [skipFind, assocFind]
  | cons e rest ih =>
    have hpw := chain_keyLt_pairwise h
    have htail : List.Chain' keyLt rest := h.tail
    simp only [skipFind]
    split_ifs with h1 h2
    · unfold assocFind
      rw [@List.find?_cons_of_neg _ (fun e1 : Entry => e1.key == k) e rest
        (by simp only [beq_iff_eq]; exact ne_of_lt h1)]
      exact ih htail
    · unfold assocFind
      rw [@List.find?_cons_of_pos _ (fun e1 : Entry => e1.key == k) e rest
        (by simp [h2])]
      rfl
    · have hgt : k < e.key := lt_of_le_of_ne (not_lt.mp h1) (Ne.symm h2)
      have habs : ∀ e1 ∈ e :: rest, e1.key ≠ k := by
        intro e1 he1
        rcases List.mem_cons.mp he1 with rfl | he1
        · exact h2
        · have := (List.pairwise_cons.mp hpw).1 e1 he1
          exact ne_of_gt (lt_trans hgt this)
      have : assocFind (e :: rest) k = none := by
        unfold assocFind
        rw [List.find?_eq_none.mpr (fun e1 he1 => by
          simp only [beq_iff_eq]
          exact habs e1 he1)]
        rfl
      rw [this]

/-- A member of a sorted list is found with its own value. -/
theorem assocFind_mem_sorted {l : List Entry} (h : List.Chain' keyLt l)
    {e : Entry} (he : e ∈ l) : assocFind l e.key = some e.value := by
  induction l with
  | nil => simp at he
  | cons x rest ih =>
    have hpw := chain_keyLt_pairwise h
    rcases List.mem_cons.mp he with rfl | he
    · unfold assocFind
      simp [List.find?_cons]
    · have hxk : x.key < e.key := (List.pairwise_cons.mp hpw).1 e he
      unfold assocFind
      simp only [List.find?_cons, show (x.key == e.key) = false by
        simp only [beq_eq_false_iff_ne]; exact ne_of_lt hxk]
      exact ih h.tail he

/-- The head of a sorted list bounds every member from below. -/
theorem headKey_le_of_mem {x : Entry} {t : List Entry}
    (h : List.Chain' keyLt (x :: t)) {e : Entry} (he : e ∈ x :: t) :
    x.key ≤ e.key := by
  rcases List.mem_cons.mp he with rfl | he
  · exact le_refl _
  · exact le_of_lt ((List.pairwise_cons.mp (chain_keyLt_pairwise h)).1 e he)

/-- Looking up the head's key hits the head. -/
theorem skipFind_cons_self (e : Entry) (tail : List Entry) :
    skipFind (e :: tail) e.key = some e.value := by
  simp [skipFind]

/-- On a sorted list, dropping the head does not change lookups of
other keys. -/
theorem skipFind_cons_ne {e : Entry} {tail : List Entry}
    (h : List.Chain' keyLt (e :: tail)) {k : Key} (hne : k ≠ e.key) :
    skipFind (e :: tail) k = skipFind tail k := by
  simp only [skipFind]
  split_ifs with h1 h2
  · rfl
  · exact absurd h2.symm hne
  · have hgt : k < e.key := lt_of_le_of_ne (not_lt.mp h1) hne
    have habs : ∀ e1 ∈ tail, e1.key ≠ k := by
      intro e1 he1
      have := (List.pairwise_cons.mp (chain_keyLt_pairwise h)).1 e1 he1
      exact ne_of_gt (lt_trans hgt this)
    exact (skipFind_eq_none tail k habs).symm

/-- A hit implies the head key is a lower bound of the key. -/
theorem skipFind_some_headKey_le {l : List Entry}
    (h : List.Chain' keyLt l) {k : Key} {v : Value}
    (hfind : skipFind l k = some v) :
    ∃ x t, l = x :: t ∧ x.key ≤ k := by
  obtain ⟨e, he, hk, _⟩ := skipFind_mem l k v hfind
  cases l with
  | nil => simp at he
  | cons x t => exact ⟨x, t, rfl, hk ▸ headKey_le_of_mem h he⟩

/-! ### C2 groundwork: the pop order -/

/-- `popsBefore` is transitive. -/
theorem popsBefore_trans {a b c : MergeSrc}
    (h1 : popsBefore a b) (h2 : popsBefore b c) : popsBefore a c := by
  rcases h1 with h1 | ⟨h1e, h1s⟩ <;> rcases h2 with h2 | ⟨h2e, h2s⟩
  · exact Or.inl (lt_trans h1 h2)
  · exact Or.inl (h2e ▸ h1)
  · exact Or.inl (h1e ▸ h2)
  · exact Or.inr ⟨h1e.trans h2e, lt_trans h1s h2s⟩

/-- `popsBefore` is asymmetric. -/
theorem popsBefore_asymm {a b : MergeSrc}
    (h1 : popsBefore a b) : ¬ popsBefore b a := by
  intro h2
  rcases h1 with h1 | ⟨h1e, h1s⟩ <;> rcases h2 with h2 | ⟨h2e, h2s⟩
  · exact absurd (lt_trans h1 h2) (lt_irrefl _)
  · exact absurd (h2e ▸ h1) (lt_irrefl _)
  · exact absurd (h1e ▸ h2) (lt_irrefl _)
  · exact absurd (lt_trans h1s h2s) (lt_irrefl _)

/-- Unpacking a non-priority: the other source's key is at least the
minimum's, and on equal keys its `second_value` is at least as large. -/
theorem not_popsBefore_le {x m : MergeSrc} (h : ¬ popsBefore x m) :
    m.headKey ≤ x.headKey ∧
    (x.headKey = m.headKey → m.secondValue ≤ x.secondValue) := by
  unfold popsBefore at h
  push_neg at h
  exact ⟨h.1, fun he => h.2 he⟩

/-- `popMinAux` returns a permutation of its input whose first
component no other source pops before, and which is the input head or
pops before it. -/
theorem popMinAux_spec (best : MergeSrc) (rest : List MergeSrc) :
    ((popMinAux best rest).1 :: (popMinAux best rest).2).Perm (best :: rest) ∧
    (∀ x ∈ (popMinAux best rest).2, ¬ popsBefore x (popMinAux best rest).1) ∧
    ((popMinAux best rest).1 = best ∨ popsBefore (popMinAux best rest).1 best) := by
  induction rest generalizing best with
  | nil =>
    refine ⟨List.Perm.refl _, ?_, Or.inl rfl⟩
    intro x hx
    exact absurd hx (List.not_mem_nil x)
  | cons s rest ih =>
    simp only [popMinAux]
    split_ifs with hb
    · obtain ⟨hperm, hmin, hthird⟩ := ih s
      refine ⟨?_, ?_, ?_⟩
      · exact (List.Perm.swap best (popMinAux s rest).1 (popMinAux s rest).2).trans
          (hperm.cons best)
      · intro x hx
        rcases List.mem_cons.mp hx with rfl | hx
        · intro hcon
          rcases hthird with h3 | h3
          · rw [h3] at hcon
            exact popsBefore_asymm hb hcon
          · have hcyc := popsBefore_trans (popsBefore_trans h3 hb) hcon
            exact popsBefore_asymm hcyc hcyc
        · exact hmin x hx
      · refine Or.inr ?_
        show popsBefore (popMinAux s rest).1 best
        rcases hthird with h3 | h3
        · rw [h3]
          exact hb
        · exact popsBefore_trans h3 hb
    · obtain ⟨hperm, hmin, hthird⟩ := ih best
      refine ⟨?_, ?_, ?_⟩
      · exact ((List.Perm.swap s (popMinAux best rest).1 (popMinAux best rest).2).trans
          (hperm.cons s)).trans (List.Perm.swap best s rest)
      · intro x hx
        rcases List.mem_cons.mp hx with rfl | hx
        · intro hcon
          rcases hthird with h3 | h3
          · rw [h3] at hcon
            exact hb hcon
          · exact hb (popsBefore_trans hcon h3)
        · exact hmin x hx
      · exact hthird

/-! ### C2 groundwork: the winning source for a key -/

/-- Unfolding `srcChoose` when the tail has no containing source. -/
theorem srcChoose_cons_none {r : List MergeSrc} {k : Key} {a : MergeSrc}
    (hr : srcChoose r k = none) :
    srcChoose (a :: r) k =
      if (skipFind a.entries k).isSome then some a else none := by
  simp only [srcChoose]
  rw [hr]

/-- Unfolding `srcChoose` when the tail chose `b`. -/
theorem srcChoose_cons_some {r : List MergeSrc} {k : Key} {a b : MergeSrc}
    (hr : srcChoose r k = some b) :
    srcChoose (a :: r) k =
      if (skipFind a.entries k).isSome ∧ a.secondValue < b.secondValue
      then some a else some b := by
  simp only [srcChoose]
  rw [hr]

/-- The chosen source is a containing member. -/
theorem srcChoose_some_mem (q : List MergeSrc) (k : Key) :
    ∀ {s}, srcChoose q k = some s → s ∈ q ∧ (skipFind s.entries k).isSome := by
  induction q with
  | nil => intro s hs; simp [srcChoose] at hs
  | cons a rest ih =>
    intro s hs
    cases hr : srcChoose rest k with
    | none =>
      rw [srcChoose_cons_none hr] at hs
      split_ifs at hs with h
      injection hs with hs
      subst hs
      exact ⟨List.mem_cons_self _ _, h⟩
    | some b =>
      rw [srcChoose_cons_some hr] at hs
      split_ifs at hs with h
      · injection hs with hs
        subst hs
        exact ⟨List.mem_cons_self _ _, h.1⟩
      · injection hs with hs
        subst hs
        obtain ⟨hmem, hsome⟩ := ih hr
        exact ⟨List.mem_cons_of_mem _ hmem, hsome⟩

/-- No choice means no source contains the key. -/
theorem srcChoose_none_iff (q : List MergeSrc) (k : Key) :
    srcChoose q k = none ↔ ∀ s ∈ q, skipFind s.entries k = none := by
  induction q with
  | nil => simp [srcChoose]
  | cons a rest ih =>
    cases hr : srcChoose rest k with
    | none =>
      rw [srcChoose_cons_none hr]
      split_ifs with h
      · refine iff_of_false (by simp) ?_
        intro hall
        rw [hall a (List.mem_cons_self _ _)] at h
        simp at h
      · refine iff_of_true rfl ?_
        intro s hs
        rcases List.mem_cons.mp hs with rfl | hs
        · exact Option.not_isSome_iff_eq_none.mp h
        · exact (ih.mp hr) s hs
    | some b =>
      rw [srcChoose_cons_some hr]
      refine iff_of_false (by split_ifs <;> simp) ?_
      intro hall
      obtain ⟨hmem, hsome⟩ := srcChoose_some_mem rest k hr
      rw [hall _ (List.mem_cons_of_mem _ hmem)] at hsome
      simp at hsome

/-- The chosen source has the least `second_value` among containing
sources. -/
theorem srcChoose_some_min (q : List MergeSrc) (k : Key) :
    ∀ {s}, srcChoose q k = some s →
      ∀ t ∈ q, (skipFind t.entries k).isSome → s.secondValue ≤ t.secondValue := by
  induction q with
  | nil => intro s hs; simp [srcChoose] at hs
  | cons a rest ih =>
    intro s hs t ht hsome
    cases hr : srcChoose rest k with
    | none =>
      rw [srcChoose_cons_none hr] at hs
      split_ifs at hs with h
      injection hs with hs
      subst hs
      rcases List.mem_cons.mp ht with rfl | ht
      · exact le_refl _
      · rw [(srcChoose_none_iff rest k).mp hr t ht] at hsome
        simp at hsome
    | some b =>
      rw [srcChoose_cons_some hr] at hs
      split_ifs at hs with h
      · injection hs with hs
        subst hs
        rcases List.mem_cons.mp ht with rfl | ht
        · exact le_refl _
        · exact le_of_lt (lt_of_lt_of_le h.2 (ih hr t ht hsome))
      · injection hs with hs
        subst hs
        rcases List.mem_cons.mp ht with rfl | ht
        · push_neg at h
          exact h hsome
        · exact ih hr t ht hsome

/-- Full characterisation of the chosen source (needs distinct
`second_value`s). -/
theorem srcChoose_eq_some_iff {q : List MergeSrc} {k : Key} {s : MergeSrc}
    (hnodup : (q.map MergeSrc.secondValue).Nodup) :
    srcChoose q k = some s ↔
      s ∈ q ∧ (skipFind s.entries k).isSome ∧
        ∀ t ∈ q, (skipFind t.entries k).isSome →
          s.secondValue ≤ t.secondValue := by
  constructor
  · intro h
    obtain ⟨hmem, hsome⟩ := srcChoose_some_mem q k h
    exact ⟨hmem, hsome, srcChoose_some_min q k h⟩
  · rintro ⟨hmem, hsome, hmin⟩
    cases hr : srcChoose q k with
    | none =>
      rw [(srcChoose_none_iff q k).mp hr s hmem] at hsome
      simp at hsome
    | some b =>
      obtain ⟨hbmem, hbsome⟩ := srcChoose_some_mem q k hr
      have h1 := srcChoose_some_min q k hr s hmem hsome
      have h2 := hmin b hbmem hbsome
      have heq : b.secondValue = s.secondValue := le_antisymm h1 h2
      have : b = s := List.inj_on_of_nodup_map hnodup hbmem hmem heq
      rw [this]

/-- `srcLookup` is invariant under queue permutations (the heap order
is irrelevant to the winner). -/
theorem srcLookup_perm {q q' : List MergeSrc} (hperm : q.Perm q')
    (hnodup : (q.map MergeSrc.secondValue).Nodup) (k : Key) :
    srcLookup q k = srcLookup q' k := by
  have hnodup' : (q'.map MergeSrc.secondValue).Nodup :=
    ((hperm.map MergeSrc.secondValue).nodup_iff).mp hnodup
  unfold srcLookup
  cases h1 : srcChoose q k with
  | none =>
    cases h2 : srcChoose q' k with
    | none => rfl
    | some b =>
      obtain ⟨hbmem, hbsome⟩ := srcChoose_some_mem q' k h2
      rw [(srcChoose_none_iff q k).mp h1 b (hperm.mem_iff.mpr hbmem)] at hbsome
      simp at hbsome
  | some sA =>
    obtain ⟨hmem, hsome, hmin⟩ := (srcChoose_eq_some_iff hnodup).mp h1
    have h2 : srcChoose q' k = some sA :=
      (srcChoose_eq_some_iff hnodup').mpr
        ⟨hperm.mem_iff.mp hmem, hsome,
         fun t ht hts => hmin t (hperm.mem_iff.mpr ht) hts⟩
    rw [h2]

/-- A source that does not contain the key does not affect the
winner. -/
theorem srcLookup_cons_none {s : MergeSrc} {k : Key}
    (h : skipFind s.entries k = none) (r : List MergeSrc) :
    srcLookup (s :: r) k = srcLookup r k := by
  unfold srcLookup
  cases hr : srcChoose r k with
  | none =>
    rw [srcChoose_cons_none hr]
    rw [if_neg (by simp [h])]
  | some b =>
    rw [srcChoose_cons_some hr]
    rw [if_neg (by simp [h])]

/-- Replacing the head source by one with the same lookup value and the
same `second_value` does not change the winner's value. -/
theorem srcLookup_cons_congr {s1 s2 : MergeSrc} {k : Key}
    (h : skipFind s1.entries k = skipFind s2.entries k)
    (hsec : s1.secondValue = s2.secondValue) (r : List MergeSrc) :
    srcLookup (s1 :: r) k = srcLookup (s2 :: r) k := by
  unfold srcLookup
  cases hr : srcChoose r k with
  | none =>
    rw [srcChoose_cons_none hr, srcChoose_cons_none hr, h]
    split_ifs with hc
    · exact h
    · rfl
  | some b =>
    rw [srcChoose_cons_some hr, srcChoose_cons_some hr, h, hsec]
    split_ifs with hc
    · exact h
    · rfl

/-- The measure is permutation-invariant. -/
theorem mergeMeasure_perm {q q' : List MergeSrc} (hperm : q.Perm q') :
    mergeMeasure q = mergeMeasure q' := by
  unfold mergeMeasure
  rw [(hperm.map (fun s => s.entries.length)).sum_eq, hperm.length_eq]

/-! ### C2: the merge loop computes the overlay of its sources -/

/-- Reversing a strictly-descending accumulator yields a strictly
ascending entry list. -/
theorem chain_keyGt_reverse {acc : List Entry} (h : List.Chain' keyGt acc) :
    List.Chain' keyLt acc.reverse := by
  rw [List.chain'_reverse]
  exact h

/-- The popped minimum wins the merge for its own head key. -/
theorem srcLookup_winner {M : MergeSrc} {e : Entry} {tail : List Entry}
    (hE : M.entries = e :: tail) {R' : List MergeSrc}
    (hne : ∀ t ∈ R', t.entries ≠ [])
    (hsorted : ∀ t ∈ R', List.Chain' keyLt t.entries)
    (hmin : ∀ t ∈ R', ¬ popsBefore t M)
    (hnodup : ((M :: R').map MergeSrc.secondValue).Nodup) :
    srcLookup (M :: R') e.key = some e.value := by
  have hMhead : M.headKey = e.key := by
    unfold MergeSrc.headKey
    rw [hE, List.headD_cons]
  have hMfind : skipFind M.entries e.key = some e.value := by
    rw [hE]
    exact skipFind_cons_self e tail
  unfold srcLookup
  cases hr : srcChoose R' e.key with
  | none =>
    rw [srcChoose_cons_none hr, if_pos (by rw [hMfind]; rfl)]
    exact hMfind
  | some b =>
    obtain ⟨hbmem, hbsome⟩ := srcChoose_some_mem R' e.key hr
    obtain ⟨v, hv⟩ := Option.isSome_iff_exists.mp hbsome
    obtain ⟨x, t, hbt, hxk⟩ := skipFind_some_headKey_le (hsorted b hbmem) hv
    have hbhead : b.headKey = x.key := by
      unfold MergeSrc.headKey
      rw [hbt, List.headD_cons]
    have hle := not_popsBefore_le (hmin b hbmem)
    have hkeyeq : b.headKey = M.headKey := by
      have h1 : e.key ≤ x.key := by
        rw [← hMhead, ← hbhead]
        exact hle.1
      rw [hbhead, hMhead]
      exact le_antisymm hxk h1
    have hsv_le : M.secondValue ≤ b.secondValue := hle.2 hkeyeq
    rw [List.map_cons] at hnodup
    have hnotin := (List.nodup_cons.mp hnodup).1
    have hsv_ne : M.secondValue ≠ b.secondValue := by
      intro hcon
      refine hnotin ?_
      rw [hcon]
      exact List.mem_map_of_mem _ hbmem
    rw [srcChoose_cons_some hr,
      if_pos ⟨by rw [hMfind]; rfl, lt_of_le_of_ne hsv_le hsv_ne⟩]
    exact hMfind

/-- Advancing the popped source's iterator past `e` (dropping the
source when exhausted) does not change the merge's answer for any other
key. -/
theorem srcLookup_advance {M : MergeSrc} {e : Entry} {tail : List Entry}
    (hE : M.entries = e :: tail) (hMs : List.Chain' keyLt M.entries)
    (R' : List MergeSrc) {k : Key} (hk : k ≠ e.key) :
    srcLookup (M :: R') k =
      srcLookup (if tail.isEmpty then R'
                 else MergeSrc.mk M.secondValue tail :: R') k := by
  cases tail with
  | nil =>
    show srcLookup (M :: R') k = srcLookup R' k
    refine srcLookup_cons_none ?_ R'
    rw [hE, skipFind_cons_ne (hE ▸ hMs) hk]
    rfl
  | cons x xt =>
    show srcLookup (M :: R') k =
      srcLookup (MergeSrc.mk M.secondValue (x :: xt) :: R') k
    refine @srcLookup_cons_congr M (MergeSrc.mk M.secondValue (x :: xt)) k ?_ rfl R'
    rw [hE]
    exact skipFind_cons_ne (hE ▸ hMs) hk

/-- One merge iteration with an empty accumulator: emit the minimum. -/
theorem mergeLoop_step_nil {fuel : Nat} {s : MergeSrc} {rest : List MergeSrc}
    {e : Entry} {tail : List Entry} {q1 : List MergeSrc}
    (hE : (popMinAux s rest).1.entries = e :: tail)
    (hq1 : (if tail.isEmpty then (popMinAux s rest).2
            else MergeSrc.mk (popMinAux s rest).1.secondValue tail ::
              (popMinAux s rest).2) = q1) :
    mergeLoop (fuel + 1) (s :: rest) [] = mergeLoop fuel q1 [e] := by
  subst hq1
  simp only [mergeLoop, hE]

/-- One merge iteration when the minimum's key repeats the last emitted
key: the duplicate is dropped. -/
theorem mergeLoop_step_skip {fuel : Nat} {s : MergeSrc} {rest : List MergeSrc}
    {e : Entry} {tail : List Entry} {q1 : List MergeSrc} {last : Entry}
    {acc' : List Entry}
    (hE : (popMinAux s rest).1.entries = e :: tail)
    (hq1 : (if tail.isEmpty then (popMinAux s rest).2
            else MergeSrc.mk (popMinAux s rest).1.secondValue tail ::
              (popMinAux s rest).2) = q1)
    (hlk : last.key = e.key) :
    mergeLoop (fuel + 1) (s :: rest) (last :: acc') =
      mergeLoop fuel q1 (last :: acc') := by
  subst hq1
  simp only [mergeLoop, hE, hlk, if_pos]

/-- One merge iteration when the minimum's key is new: emit it. -/
theorem mergeLoop_step_emit {fuel : Nat} {s : MergeSrc} {rest : List MergeSrc}
    {e : Entry} {tail : List Entry} {q1 : List MergeSrc} {last : Entry}
    {acc' : List Entry}
    (hE : (popMinAux s rest).1.entries = e :: tail)
    (hq1 : (if tail.isEmpty then (popMinAux s rest).2
            else MergeSrc.mk (popMinAux s rest).1.secondValue tail ::
              (popMinAux s rest).2) = q1)
    (hlk : last.key ≠ e.key) :
    mergeLoop (fuel + 1) (s :: rest) (last :: acc') =
      mergeLoop fuel q1 (e :: last :: acc') := by
  subst hq1
  simp only [mergeLoop, hE, if_neg hlk]

/-- Main merge invariant: with enough fuel, non-empty sorted sources
with pairwise-distinct `second_value`s, and a descending accumulator
below every pending key, the merge emits a strictly ascending stream
whose association view is the already-emitted view overridden only by
the sources' winner view. -/
theorem mergeLoop_spec (fuel : Nat) :
    ∀ (q : List MergeSrc) (acc : List Entry),
      mergeMeasure q ≤ fuel →
      (∀ s ∈ q, s.entries ≠ []) →
      (∀ s ∈ q, List.Chain' keyLt s.entries) →
      (q.map MergeSrc.secondValue).Nodup →
      List.Chain' keyGt acc →
      (∀ a ∈ acc.head?, ∀ s ∈ q, ∀ x ∈ s.entries, a.key ≤ x.key) →
      List.Chain' keyLt (mergeLoop fuel q acc) ∧
      ∀ k, assocFind (mergeLoop fuel q acc) k =
        (assocFind acc.reverse k).or (srcLookup q k) := by
  induction fuel with
  | zero =>
    intro q acc hfuel hne hsorted hnodup hacc hbound
    have hq : q = [] := by
      cases q with
      | nil => rfl
      | cons s r =>
        exfalso
        simp only [mergeMeasure, List.map_cons, List.sum_cons,
          List.length_cons] at hfuel
        omega
    subst hq
    refine ⟨chain_keyGt_reverse hacc, ?_⟩
    intro k
    show assocFind acc.reverse k = (assocFind acc.reverse k).or none
    rw [Option.or_none]
  | succ fuel ih =>
    intro q acc hfuel hne hsorted hnodup hacc hbound
    cases q with
    | nil =>
      refine ⟨chain_keyGt_reverse hacc, ?_⟩
      intro k
      show assocFind acc.reverse k = (assocFind acc.reverse k).or none
      rw [Option.or_none]
    | cons s rest =>
      obtain ⟨hperm, hmin, _⟩ := popMinAux_spec s rest
      have hMq : (popMinAux s rest).1 ∈ s :: rest :=
        hperm.subset (List.mem_cons_self _ _)
      have hRq : ∀ t ∈ (popMinAux s rest).2, t ∈ s :: rest :=
        fun t ht => hperm.subset (List.mem_cons_of_mem _ ht)
      have hnodupMR : (((popMinAux s rest).1 :: (popMinAux s rest).2).map
          MergeSrc.secondValue).Nodup := ((hperm.map _).nodup_iff).mpr hnodup
      cases hE : (popMinAux s rest).1.entries with
      | nil => exact absurd hE (hne _ hMq)
      | cons e tail =>
        have hMs : List.Chain' keyLt (popMinAux s rest).1.entries :=
          hsorted _ hMq
        have hMsE : List.Chain' keyLt (e :: tail) := hE ▸ hMs
        have htail_lb : ∀ x ∈ tail, e.key < x.key := fun x hx =>
          (List.pairwise_cons.mp (chain_keyLt_pairwise hMsE)).1 x hx
        have hkey_lb : ∀ t ∈ (popMinAux s rest).2, ∀ x ∈ t.entries,
            e.key ≤ x.key := by
          intro t ht x hx
          obtain ⟨y, yt, hty⟩ : ∃ y yt, t.entries = y :: yt := by
            cases htE : t.entries with
            | nil => exact absurd htE (hne t (hRq t ht))
            | cons y yt => exact ⟨y, yt, rfl⟩
          have hhead : t.headKey = y.key := by
            unfold MergeSrc.headKey
            rw [hty, List.headD_cons]
          have hMhead : (popMinAux s rest).1.headKey = e.key := by
            unfold MergeSrc.headKey
            rw [hE, List.headD_cons]
          have h1 : e.key ≤ y.key := by
            have h2 := (not_popsBefore_le (hmin t ht)).1
            rw [hMhead, hhead] at h2
            exact h2
          have h2 : y.key ≤ x.key := by
            have hts : List.Chain' keyLt (y :: yt) := hty ▸ hsorted t (hRq t ht)
            exact headKey_le_of_mem hts (hty ▸ hx)
          exact le_trans h1 h2
        have hwin : srcLookup
            ((popMinAux s rest).1 :: (popMinAux s rest).2) e.key =
            some e.value :=
          srcLookup_winner hE (fun t ht => hne t (hRq t ht))
            (fun t ht => hsorted t (hRq t ht)) hmin hnodupMR
        have hlook : ∀ k,
            srcLookup ((popMinAux s rest).1 :: (popMinAux s rest).2) k =
            srcLookup (s :: rest) k :=
          fun k => srcLookup_perm hperm hnodupMR k
        obtain ⟨q1, hq1eq, hq1cases⟩ :
            ∃ q1, (if tail.isEmpty then (popMinAux s rest).2
                   else MergeSrc.mk (popMinAux s rest).1.secondValue tail ::
                     (popMinAux s rest).2) = q1 ∧
              ((tail = [] ∧ q1 = (popMinAux s rest).2) ∨
               (tail ≠ [] ∧
                q1 = MergeSrc.mk (popMinAux s rest).1.secondValue tail ::
                  (popMinAux s rest).2)) := by
          cases tail with
          | nil => exact ⟨(popMinAux s rest).2, rfl, Or.inl ⟨rfl, rfl⟩⟩
          | cons x xt =>
            exact ⟨MergeSrc.mk (popMinAux s rest).1.secondValue (x :: xt) ::
              (popMinAux s rest).2, rfl, Or.inr ⟨List.cons_ne_nil _ _, rfl⟩⟩
        have hq1ne : ∀ t ∈ q1, t.entries ≠ [] := by
          rcases hq1cases with ⟨htl, rfl⟩ | ⟨htl, rfl⟩
          · exact fun t ht => hne t (hRq t ht)
          · intro t ht
            rcases List.mem_cons.mp ht with rfl | ht
            · exact htl
            · exact hne t (hRq t ht)
        have hq1sorted : ∀ t ∈ q1, List.Chain' keyLt t.entries := by
          rcases hq1cases with ⟨htl, rfl⟩ | ⟨htl, rfl⟩
          · exact fun t ht => hsorted t (hRq t ht)
          · intro t ht
            rcases List.mem_cons.mp ht with rfl | ht
            · exact hMsE.tail
            · exact hsorted t (hRq t ht)
        have hq1nodup : (q1.map MergeSrc.secondValue).Nodup := by
          rcases hq1cases with ⟨htl, rfl⟩ | ⟨htl, rfl⟩
          · rw [List.map_cons] at hnodupMR
            exact (List.nodup_cons.mp hnodupMR).2
          · rw [List.map_cons] at hnodupMR ⊢
            exact hnodupMR
        have hq1fuel : mergeMeasure q1 ≤ fuel := by
          have hmm : mergeMeasure (s :: rest) =
              mergeMeasure ((popMinAux s rest).1 :: (popMinAux s rest).2) :=
            mergeMeasure_perm hperm.symm
          rcases hq1cases with ⟨rfl, rfl⟩ | ⟨htl, rfl⟩
          · simp only [mergeMeasure, List.map_cons, List.sum_cons,
              List.length_cons, hE, List.length_nil] at hmm hfuel ⊢
            omega
          · simp only [mergeMeasure, List.map_cons, List.sum_cons,
              List.length_cons, hE] at hmm hfuel ⊢
            omega
        have hq1key : ∀ t ∈ q1, ∀ x ∈ t.entries, e.key ≤ x.key := by
          rcases hq1cases with ⟨htl, rfl⟩ | ⟨htl, rfl⟩
          · exact hkey_lb
          · intro t ht x hx
            rcases List.mem_cons.mp ht with rfl | ht
            · exact le_of_lt (htail_lb x hx)
            · exact hkey_lb t ht x hx
        have hadv1 : ∀ k, k ≠ e.key →
            srcLookup (s :: rest) k = srcLookup q1 k := by
          intro k hk
          rw [← hlook k, ← hq1eq]
          exact srcLookup_advance hE hMs _ hk
        have hwin1 : srcLookup (s :: rest) e.key = some e.value := by
          rw [← hlook e.key]
          exact hwin
        cases acc with
        | nil =>
          have hstep : mergeLoop (fuel + 1) (s :: rest) [] =
              mergeLoop fuel q1 [e] := mergeLoop_step_nil hE hq1eq
          have hb1 : ∀ a ∈ ([e] : List Entry).head?, ∀ t ∈ q1,
              ∀ x ∈ t.entries, a.key ≤ x.key := by
            intro a ha t ht x hx
            have ha1 : e = a := by simpa using ha
            subst ha1
            exact hq1key t ht x hx
          obtain ⟨ihchain, ihfind⟩ := ih q1 [e] hq1fuel hq1ne hq1sorted
            hq1nodup (List.chain'_singleton e) hb1
          refine ⟨?_, ?_⟩
          · rw [hstep]
            exact ihchain
          · intro k
            rw [hstep, ihfind k]
            show (assocFind [e] k).or (srcLookup q1 k) =
              Option.or none (srcLookup (s :: rest) k)
            by_cases hk : k = e.key
            · subst hk
              rw [assocFind_singleton, if_pos rfl, hwin1]
              rfl
            · rw [assocFind_singleton, if_neg (Ne.symm hk), hadv1 k hk]
        | cons last acc' =>
          by_cases hlk : last.key = e.key
          · have hstep : mergeLoop (fuel + 1) (s :: rest) (last :: acc') =
                mergeLoop fuel q1 (last :: acc') :=
              mergeLoop_step_skip hE hq1eq hlk
            have hb1 : ∀ a ∈ (last :: acc').head?, ∀ t ∈ q1,
                ∀ x ∈ t.entries, a.key ≤ x.key := by
              intro a ha t ht x hx
              have ha1 : last = a := by simpa using ha
              subst ha1
              rw [hlk]
              exact hq1key t ht x hx
            obtain ⟨ihchain, ihfind⟩ := ih q1 (last :: acc') hq1fuel hq1ne
              hq1sorted hq1nodup hacc hb1
            refine ⟨?_, ?_⟩
            · rw [hstep]
              exact ihchain
            · intro k
              rw [hstep, ihfind k]
              by_cases hk : k = e.key
              · subst hk
                have hlast : last ∈ (last :: acc').reverse :=
                  List.mem_reverse.mpr (List.mem_cons_self _ _)
                have hsome := assocFind_isSome_of_mem hlast
                rw [hlk] at hsome
                obtain ⟨v, hv⟩ := Option.isSome_iff_exists.mp hsome
                rw [hv]
                rfl
              · rw [hadv1 k hk]
          · have hstep : mergeLoop (fuel + 1) (s :: rest) (last :: acc') =
                mergeLoop fuel q1 (e :: last :: acc') :=
              mergeLoop_step_emit hE hq1eq hlk
            have hble : last.key ≤ e.key :=
              hbound last (by simp) (popMinAux s rest).1 hMq e
                (by rw [hE]; exact List.mem_cons_self _ _)
            have hchain1 : List.Chain' keyGt (e :: last :: acc') :=
              List.Chain'.cons (lt_of_le_of_ne hble hlk) hacc
            have hb1 : ∀ a ∈ (e :: last :: acc').head?, ∀ t ∈ q1,
                ∀ x ∈ t.entries, a.key ≤ x.key := by
              intro a ha t ht x hx
              have ha1 : e = a := by simpa using ha
              subst ha1
              exact hq1key t ht x hx
            obtain ⟨ihchain, ihfind⟩ := ih q1 (e :: last :: acc') hq1fuel
              hq1ne hq1sorted hq1nodup hchain1 hb1
            refine ⟨?_, ?_⟩
            · rw [hstep]
              exact ihchain
            · intro k
              rw [hstep, ihfind k, List.reverse_cons, assocFind_append,
                Option.or_assoc]
              congr 1
              by_cases hk : k = e.key
              · subst hk
                rw [assocFind_singleton, if_pos rfl, hwin1]
                rfl
              · rw [assocFind_singleton, if_neg (Ne.symm hk), hadv1 k hk]
                exact Option.none_or

/-- `compactionMerge` with its natural fuel: sorted ascending output
whose association view is the sources' winner view. -/
theorem compactionMerge_spec (sources : List MergeSrc)
    (hne : ∀ s ∈ sources, s.entries ≠ [])
    (hsorted : ∀ s ∈ sources, List.Chain' keyLt s.entries)
    (hnodup : (sources.map MergeSrc.secondValue).Nodup) :
    List.Chain' keyLt (compactionMerge sources) ∧
    ∀ k, assocFind (compactionMerge sources) k = srcLookup sources k := by
  have h := mergeLoop_spec (mergeMeasure sources + 1) sources []
    (Nat.le_succ _) hne hsorted hnodup List.chain'_nil
    (by intro a ha; simp at ha)
  refine ⟨h.1, fun k => ?_⟩
  have h2 := h.2 k
  unfold compactionMerge
  rw [h2]
  rfl

/-- The winner view of position-tagged sources is the overlay view in
tag order: earlier (smaller-tag) sources take precedence. -/
theorem srcLookup_enumFrom (k : Key) :
    ∀ (ms : List (List Entry)) (n : Nat),
      srcLookup ((ms.enumFrom n).map
        (fun p => MergeSrc.mk p.1 p.2)) k = overlayFind ms k := by
  intro ms
  induction ms with
  | nil => intro n; rfl
  | cons m ms ih =>
    intro n
    have hover : ∀ w, skipFind m k = w →
        overlayFind (m :: ms) k = w.or (overlayFind ms k) := by
      intro w hw
      unfold overlayFind
      rw [show ((m :: ms) : List (List Entry)) = [m] ++ ms from rfl,
        List.findSome?_append]
      cases w with
      | none =>
        rw [show ([m] : List (List Entry)).findSome? (fun m1 => skipFind m1 k)
            = skipFind m k from by
          unfold List.findSome?
          cases hf : skipFind m k <;> rfl, hw]
      | some v =>
        rw [show ([m] : List (List Entry)).findSome? (fun m1 => skipFind m1 k)
            = skipFind m k from by
          unfold List.findSome?
          cases hf : skipFind m k <;> rfl, hw]
    have hsv : ∀ src ∈ ((ms.enumFrom (n + 1)).map
        (fun p : Nat × List Entry => MergeSrc.mk p.1 p.2)),
        n < src.secondValue := by
      intro src hsrc
      obtain ⟨p, hp, hpe⟩ := List.mem_map.mp hsrc
      have h1 : p.1 ∈ (ms.enumFrom (n + 1)).map Prod.fst :=
        List.mem_map_of_mem _ hp
      rw [List.enumFrom_map_fst] at h1
      have h2 := (List.mem_range'_1.mp h1).1
      subst hpe
      show n < p.1
      omega
    simp only [List.enumFrom, List.map_cons]
    cases hfm : skipFind m k with
    | none =>
      have hfm1 : skipFind (MergeSrc.mk n m).entries k = none := hfm
      rw [srcLookup_cons_none hfm1, ih (n + 1), hover none hfm]
      rfl
    | some v =>
      unfold srcLookup
      cases hr : srcChoose ((ms.enumFrom (n + 1)).map
          (fun p => MergeSrc.mk p.1 p.2)) k with
      | none =>
        rw [srcChoose_cons_none hr,
          if_pos (show (skipFind (MergeSrc.mk n m).entries k).isSome = true by
            show (skipFind m k).isSome = true
            rw [hfm]
            rfl)]
        show skipFind m k = overlayFind (m :: ms) k
        rw [hover (some v) hfm, hfm]
        rfl
      | some b =>
        obtain ⟨hbmem, _⟩ := srcChoose_some_mem _ k hr
        rw [srcChoose_cons_some hr,
          if_pos ⟨show (skipFind (MergeSrc.mk n m).entries k).isSome = true by
            show (skipFind m k).isSome = true
            rw [hfm]
            rfl, hsv b hbmem⟩]
        show skipFind m k = overlayFind (m :: ms) k
        rw [hover (some v) hfm, hfm]
        rfl

/-- The merge's winner view over `tagSources` is the overlay view. -/
theorem srcLookup_tagSources (ms : List (List Entry)) (k : Key) :
    srcLookup (tagSources ms) k = overlayFind ms k :=
  srcLookup_enumFrom k ms 0

/-- The position tags are pairwise distinct. -/
theorem tagSources_sv_nodup (ms : List (List Entry)) :
    ((tagSources ms).map MergeSrc.secondValue).Nodup := by
  show (((ms.enumFrom 0).map
    (fun p => MergeSrc.mk p.1 p.2)).map MergeSrc.secondValue).Nodup
  rw [List.map_map,
    show (MergeSrc.secondValue ∘ fun p : Nat × List Entry =>
      MergeSrc.mk p.1 p.2) = Prod.fst from rfl,
    List.enumFrom_map_fst]
  exact List.nodup_range' 0 ms.length

/-- Each tagged source's entry list is one of the inputs. -/
theorem tagSources_entries_mem {ms : List (List Entry)} {src : MergeSrc}
    (h : src ∈ tagSources ms) : src.entries ∈ ms := by
  obtain ⟨p, hp, hpe⟩ := List.mem_map.mp h
  have h1 : p.2 ∈ (ms.enumFrom 0).map Prod.snd := List.mem_map_of_mem _ hp
  rw [List.enumFrom_map_snd] at h1
  subst hpe
  exact h1

/-! ### Key-range bounds of sorted SSTs -/

/-- Every member of a sorted entry list is at most the last key. -/
theorem le_lastKey_of_mem :
    ∀ {sst : List Entry}, List.Chain' keyLt sst →
      ∀ {e : Entry}, e ∈ sst → e.key ≤ lastKeyOf sst := by
  intro sst
  induction sst with
  | nil => intro _ e he; simp at he
  | cons x rest ih =>
    intro hs e he
    cases rest with
    | nil =>
      rcases List.mem_cons.mp he with rfl | he
      · exact le_refl _
      · simp at he
    | cons y t =>
      have hlast : lastKeyOf (x :: y :: t) = lastKeyOf (y :: t) := rfl
      rw [hlast]
      rcases List.mem_cons.mp he with rfl | he
      · have h1 : e.key < y.key := hs.rel_head
        have h2 : y.key ≤ lastKeyOf (y :: t) :=
          ih hs.tail (List.mem_cons_self _ _)
        exact le_of_lt (lt_of_lt_of_le h1 h2)
      · exact ih hs.tail he

/-- Every member of an entry list is at least the first key. -/
theorem firstKey_le_of_mem {sst : List Entry}
    (hs : List.Chain' keyLt sst) {e : Entry} (he : e ∈ sst) :
    firstKeyOf sst ≤ e.key := by
  cases sst with
  | nil => simp at he
  | cons x t =>
    show (List.headD (x :: t) default).key ≤ e.key
    rw [List.headD_cons]
    exact headKey_le_of_mem hs he

/-- A sorted non-empty SST's first key is at most its last key. -/
theorem firstKey_le_lastKey {sst : List Entry}
    (hs : List.Chain' keyLt sst) (hne : sst ≠ []) :
    firstKeyOf sst ≤ lastKeyOf sst := by
  cases sst with
  | nil => exact absurd rfl hne
  | cons x t =>
    have h1 : firstKeyOf (x :: t) = x.key := by
      show (List.headD (x :: t) default).key = x.key
      rw [List.headD_cons]
    rw [h1]
    exact le_lastKey_of_mem hs (List.mem_cons_self _ _)

/-- A lookup outside an SST's key range misses (sorted SSTs). -/
theorem skipFind_out_of_range {sst : List Entry}
    (hs : List.Chain' keyLt sst) {k : Key}
    (h : k < firstKeyOf sst ∨ lastKeyOf sst < k) :
    skipFind sst k = none := by
  refine skipFind_eq_none sst k ?_
  intro e he
  rcases h with h | h
  · exact fun hc => absurd (lt_of_lt_of_le h (firstKey_le_of_mem hs he))
      (hc ▸ lt_irrefl _)
  · exact fun hc => absurd (lt_of_le_of_lt (le_lastKey_of_mem hs he) h)
      (hc ▸ lt_irrefl _)

/-- A key found in a sorted SST lies within its key range. -/
theorem skipFind_in_range {sst : List Entry}
    (hs : List.Chain' keyLt sst) {k : Key} {v : Value}
    (h : skipFind sst k = some v) :
    firstKeyOf sst ≤ k ∧ k ≤ lastKeyOf sst := by
  obtain ⟨e, he, hk, _⟩ := skipFind_mem sst k v h
  exact ⟨hk ▸ firstKey_le_of_mem hs he, hk ▸ le_lastKey_of_mem hs he⟩

/-! ### The running min/max key of the compacted level -/

/-- Generic member of `getLastD`. -/
theorem getLastD_mem {α : Type} :
    ∀ (l : List α) (d : α), l ≠ [] → l.getLastD d ∈ l := by
  intro l
  induction l with
  | nil => intro d h; exact absurd rfl h
  | cons a l ih =>
    intro d _
    rw [List.getLastD_cons]
    cases l with
    | nil => exact List.mem_cons_self _ _
    | cons b t => exact List.mem_cons_of_mem _ (ih a (List.cons_ne_nil _ _))

/-- The `min_key` fold from a non-empty accumulator: a running minimum
(no sentinel reset can fire once the keys are non-empty). -/
theorem foldl_updateMinKey_spec :
    ∀ (srcs : List (List Entry)) (acc : Key), acc ≠ [] →
      (∀ sst ∈ srcs, firstKeyOf sst ≠ []) →
      (srcs.foldl (fun mk sst => updateMinKey mk (firstKeyOf sst)) acc ≤ acc ∧
       (∀ sst ∈ srcs,
         srcs.foldl (fun mk sst => updateMinKey mk (firstKeyOf sst)) acc ≤
           firstKeyOf sst) ∧
       srcs.foldl (fun mk sst => updateMinKey mk (firstKeyOf sst)) acc ≠ []) := by
  intro srcs
  induction srcs with
  | nil =>
    intro acc hacc _
    exact ⟨le_refl _, fun sst h => absurd h (List.not_mem_nil _), hacc⟩
  | cons sst srcs ih =>
    intro acc hacc hks
    have hstep : updateMinKey acc (firstKeyOf sst) =
        if firstKeyOf sst < acc then firstKeyOf sst else acc := by
      unfold updateMinKey
      by_cases hb : firstKeyOf sst < acc
      · rw [if_pos (Or.inr hb), if_pos hb]
      · rw [if_neg ?_, if_neg hb]
        rintro (h | h)
        · exact hacc h
        · exact hb h
    have hacc1ne : updateMinKey acc (firstKeyOf sst) ≠ [] := by
      rw [hstep]
      split_ifs
      · exact hks sst (List.mem_cons_self _ _)
      · exact hacc
    have hacc1le : updateMinKey acc (firstKeyOf sst) ≤ acc := by
      rw [hstep]
      split_ifs with h
      · exact le_of_lt h
      · exact le_refl _
    have hacc1first : updateMinKey acc (firstKeyOf sst) ≤ firstKeyOf sst := by
      rw [hstep]
      split_ifs with h
      · exact le_refl _
      · exact le_of_not_lt h
    obtain ⟨h1, h2, h3⟩ := ih (updateMinKey acc (firstKeyOf sst)) hacc1ne
      (fun s hs => hks s (List.mem_cons_of_mem _ hs))
    rw [List.foldl_cons]
    refine ⟨le_trans h1 hacc1le, ?_, h3⟩
    intro s hs
    rcases List.mem_cons.mp hs with rfl | hs
    · exact le_trans h1 hacc1first
    · exact h2 s hs

/-- `min_key` over a level with non-empty first keys bounds every first
key from below. -/
theorem minKeyOf_le {srcs : List (List Entry)}
    (hks : ∀ sst ∈ srcs, firstKeyOf sst ≠ []) :
    ∀ sst ∈ srcs, minKeyOf srcs ≤ firstKeyOf sst := by
  cases srcs with
  | nil => intro sst h; exact absurd h (List.not_mem_nil _)
  | cons s0 rest =>
    unfold minKeyOf
    rw [List.foldl_cons,
      show updateMinKey [] (firstKeyOf s0) = firstKeyOf s0 from by
        unfold updateMinKey
        rw [if_pos (Or.inl rfl)]]
    obtain ⟨h1, h2, _⟩ := foldl_updateMinKey_spec rest (firstKeyOf s0)
      (hks s0 (List.mem_cons_self _ _))
      (fun s hs => hks s (List.mem_cons_of_mem _ hs))
    intro sst hsst
    rcases List.mem_cons.mp hsst with rfl | hsst
    · exact h1
    · exact h2 sst hsst

/-- The `max_key` fold from a non-empty accumulator: a running
maximum. -/
theorem foldl_updateMaxKey_spec :
    ∀ (srcs : List (List Entry)) (acc : Key), acc ≠ [] →
      (acc ≤ srcs.foldl (fun mk sst => updateMaxKey mk (lastKeyOf sst)) acc ∧
       (∀ sst ∈ srcs,
         lastKeyOf sst ≤
           srcs.foldl (fun mk sst => updateMaxKey mk (lastKeyOf sst)) acc) ∧
       srcs.foldl (fun mk sst => updateMaxKey mk (lastKeyOf sst)) acc ≠ []) := by
  intro srcs
  induction srcs with
  | nil =>
    intro acc hacc
    exact ⟨le_refl _, fun sst h => absurd h (List.not_mem_nil _), hacc⟩
  | cons sst srcs ih =>
    intro acc hacc
    have hstep : updateMaxKey acc (lastKeyOf sst) =
        if acc < lastKeyOf sst then lastKeyOf sst else acc := by
      unfold updateMaxKey
      by_cases hb : acc < lastKeyOf sst
      · rw [if_pos (Or.inr hb), if_pos hb]
      · rw [if_neg ?_, if_neg hb]
        rintro (h | h)
        · exact hacc h
        · exact hb h
    have hacc1ne : updateMaxKey acc (lastKeyOf sst) ≠ [] := by
      rw [hstep]
      split_ifs with h
      · intro hcon
        rw [hcon] at h
        exact absurd (lt_of_le_of_lt (show ([] : Key) ≤ acc from List.nil_le) h)
          (lt_irrefl _)
      · exact hacc
    have hacc1ge : acc ≤ updateMaxKey acc (lastKeyOf sst) := by
      rw [hstep]
      split_ifs with h
      · exact le_of_lt h
      · exact le_refl _
    have hacc1last : lastKeyOf sst ≤ updateMaxKey acc (lastKeyOf sst) := by
      rw [hstep]
      split_ifs with h
      · exact le_refl _
      · exact le_of_not_lt h
    obtain ⟨h1, h2, h3⟩ := ih (updateMaxKey acc (lastKeyOf sst)) hacc1ne
    rw [List.foldl_cons]
    refine ⟨le_trans hacc1ge h1, ?_, h3⟩
    intro s hs
    rcases List.mem_cons.mp hs with rfl | hs
    · exact le_trans hacc1last h1
    · exact h2 s hs

/-- `max_key` over a level with non-empty last keys bounds every last
key from above. -/
theorem maxKeyOf_ge {srcs : List (List Entry)}
    (hks : ∀ sst ∈ srcs, lastKeyOf sst ≠ []) :
    ∀ sst ∈ srcs, lastKeyOf sst ≤ maxKeyOf srcs := by
  cases srcs with
  | nil => intro sst h; exact absurd h (List.not_mem_nil _)
  | cons s0 rest =>
    unfold maxKeyOf
    rw [List.foldl_cons,
      show updateMaxKey [] (lastKeyOf s0) = lastKeyOf s0 from by
        unfold updateMaxKey
        rw [if_pos (Or.inl rfl)]]
    obtain ⟨h1, h2, _⟩ := foldl_updateMaxKey_spec rest (lastKeyOf s0)
      (hks s0 (List.mem_cons_self _ _))
    intro sst hsst
    rcases List.mem_cons.mp hsst with rfl | hsst
    · exact h1
    · exact h2 sst hsst

/-! ### Overlay lookups -/

/-- An overlay with no hit anywhere is a miss. -/
theorem overlayFind_eq_none {ms : List (List Entry)} {k : Key}
    (h : ∀ m ∈ ms, skipFind m k = none) : overlayFind ms k = none :=
  List.findSome?_eq_none_iff.mpr h

/-- The overlay distributes over concatenation. -/
theorem overlayFind_append (l1 l2 : List (List Entry)) (k : Key) :
    overlayFind (l1 ++ l2) k = (overlayFind l1 k).or (overlayFind l2 k) :=
  List.findSome?_append

/-- When at most one stack member can contain the key, the overlay is
that member's lookup. -/
theorem overlayFind_eq_of_unique (k : Key) :
    ∀ (ms : List (List Entry)) (j : Nat), j < ms.length →
      (∀ i, i < ms.length → i ≠ j → skipFind (ms.getD i []) k = none) →
      overlayFind ms k = skipFind (ms.getD j []) k := by
  intro ms
  induction ms with
  | nil =>
    intro j hj
    simp at hj
  | cons m ms ih =>
    intro j hj hothers
    cases j with
    | zero =>
      have htail : overlayFind ms k = none := by
        refine overlayFind_eq_none ?_
        intro m1 hm1
        obtain ⟨i, hi, rfl⟩ := List.mem_iff_getElem.mp hm1
        have h := hothers (i + 1) (by simp only [List.length_cons]; omega)
          (Nat.succ_ne_zero i)
        rw [List.getD_cons_succ, List.getD_eq_getElem _ _ hi] at h
        exact h
      show ((m :: ms).findSome? fun m1 => skipFind m1 k) =
        skipFind ((m :: ms).getD 0 []) k
      rw [List.findSome?_cons, List.getD_cons_zero]
      cases hfm : skipFind m k with
      | none => exact htail
      | some v => rfl
    | succ j1 =>
      have hhead : skipFind m k = none := by
        have h := hothers 0 (by simp only [List.length_cons]; omega)
          (Nat.succ_ne_zero j1).symm
        rw [List.getD_cons_zero] at h
        exact h
      show ((m :: ms).findSome? fun m1 => skipFind m1 k) =
        skipFind ((m :: ms).getD (j1 + 1) []) k
      rw [List.findSome?_cons, hhead, List.getD_cons_succ]
      exact ih j1 (by simp only [List.length_cons] at hj; omega)
        (fun i hi hne => by
          have h := hothers (i + 1) (by simp only [List.length_cons]; omega)
            (by omega)
          rwa [List.getD_cons_succ] at h)

/-! ### The binary searches -/

/-- Boundary invariant of the `DataBlockIndex::Get` lower-bound loop:
from a window whose left part is `< k` and right part is `≥ k`, the
loop lands exactly on the boundary. -/
theorem lbLoop_spec (es : List Entry) (k : Key)
    (hsorted : ∀ i j, i < j → j < es.length →
      (es.getD i default).key < (es.getD j default).key) :
    ∀ (fuel l r : Nat), r - l ≤ fuel → l ≤ r → r ≤ es.length →
      (∀ i, i < l → (es.getD i default).key < k) →
      (∀ i, r ≤ i → i < es.length → ¬ (es.getD i default).key < k) →
      (l ≤ lbLoop es k fuel l r ∧ lbLoop es k fuel l r ≤ r ∧
       (∀ i, i < lbLoop es k fuel l r → (es.getD i default).key < k) ∧
       (∀ i, lbLoop es k fuel l r ≤ i → i < es.length →
         ¬ (es.getD i default).key < k)) := by
  intro fuel
  induction fuel with
  | zero =>
    intro l r hfuel hlr hre hlo hhi
    have hl : l = r := by omega
    subst hl
    exact ⟨le_refl _, le_refl _, hlo, hhi⟩
  | succ fuel ih =>
    intro l r hfuel hlr hre hlo hhi
    by_cases hcond : l < r
    · have hunfold : lbLoop es k (fuel + 1) l r =
          if (es.getD ((l + r) / 2) default).key < k
          then lbLoop es k fuel ((l + r) / 2 + 1) r
          else lbLoop es k fuel l ((l + r) / 2) := by
        simp only [lbLoop, if_pos hcond]
      rw [hunfold]
      by_cases hmid : (es.getD ((l + r) / 2) default).key < k
      · rw [if_pos hmid]
        obtain ⟨a, b, c, d⟩ := ih ((l + r) / 2 + 1) r (by omega) (by omega) hre
          (by
            intro i hilt
            by_cases hi2 : i = (l + r) / 2
            · rw [hi2]
              exact hmid
            · by_cases hi3 : i < l
              · exact hlo i hi3
              · exact lt_trans (hsorted i ((l + r) / 2) (by omega) (by omega))
                  hmid)
          hhi
        exact ⟨by omega, b, c, d⟩
      · rw [if_neg hmid]
        obtain ⟨a, b, c, d⟩ := ih l ((l + r) / 2) (by omega) (by omega)
          (by omega) hlo
          (by
            intro i hile hilen
            by_cases hi2 : i = (l + r) / 2
            · rw [hi2]
              exact hmid
            · intro hcon
              exact hmid (lt_trans
                (hsorted ((l + r) / 2) i (by omega) hilen) hcon))
        exact ⟨a, by omega, c, d⟩
    · have hl : l = r := by omega
      have hres : lbLoop es k (fuel + 1) l r = l := by
        simp only [lbLoop, if_neg hcond]
      rw [hres]
      subst hl
      exact ⟨le_refl _, le_refl _, hlo, hhi⟩

/-- Boundary invariant of the `Level::Get` upper-bound loop. -/
theorem ubLoop_spec (fks : List Key) (k : Key)
    (hsorted : ∀ i j, i < j → j < fks.length →
      fks.getD i default < fks.getD j default) :
    ∀ (fuel l r : Nat), r - l ≤ fuel → l ≤ r → r ≤ fks.length →
      (∀ i, i < l → ¬ k < fks.getD i default) →
      (∀ i, r ≤ i → i < fks.length → k < fks.getD i default) →
      (l ≤ ubLoop fks k fuel l r ∧ ubLoop fks k fuel l r ≤ r ∧
       (∀ i, i < ubLoop fks k fuel l r → ¬ k < fks.getD i default) ∧
       (∀ i, ubLoop fks k fuel l r ≤ i → i < fks.length →
         k < fks.getD i default)) := by
  intro fuel
  induction fuel with
  | zero =>
    intro l r hfuel hlr hre hlo hhi
    have hl : l = r := by omega
    subst hl
    exact ⟨le_refl _, le_refl _, hlo, hhi⟩
  | succ fuel ih =>
    intro l r hfuel hlr hre hlo hhi
    by_cases hcond : l < r
    · have hunfold : ubLoop fks k (fuel + 1) l r =
          if k < fks.getD ((l + r) / 2) default
          then ubLoop fks k fuel l ((l + r) / 2)
          else ubLoop fks k fuel ((l + r) / 2 + 1) r := by
        simp only [ubLoop, if_pos hcond]
      rw [hunfold]
      by_cases hmid : k < fks.getD ((l + r) / 2) default
      · rw [if_pos hmid]
        obtain ⟨a, b, c, d⟩ := ih l ((l + r) / 2) (by omega) (by omega)
          (by omega) hlo
          (by
            intro i hile hilen
            by_cases hi2 : i = (l + r) / 2
            · rw [hi2]
              exact hmid
            · exact lt_trans hmid
                (hsorted ((l + r) / 2) i (by omega) hilen))
        exact ⟨a, by omega, c, d⟩
      · rw [if_neg hmid]
        obtain ⟨a, b, c, d⟩ := ih ((l + r) / 2 + 1) r (by omega) (by omega) hre
          (by
            intro i hilt
            by_cases hi2 : i = (l + r) / 2
            · rw [hi2]
              exact hmid
            · by_cases hi3 : i < l
              · exact hlo i hi3
              · intro hcon
                exact hmid (lt_trans hcon
                  (hsorted i ((l + r) / 2) (by omega) (by omega)))
            )
          hhi
        exact ⟨by omega, b, c, d⟩
    · have hl : l = r := by omega
      have hres : ubLoop fks k (fuel + 1) l r = l := by
        simp only [ubLoop, if_neg hcond]
      rw [hres]
      subst hl
      exact ⟨le_refl _, le_refl _, hlo, hhi⟩

/-- On a sorted data block the binary-search probe equals the walk
lookup. -/
theorem dataBlockGet_eq_skipFind (es : List Entry)
    (hs : List.Chain' keyLt es) (k : Key) :
    dataBlockGet es k = skipFind es k := by
  have hpw := chain_keyLt_pairwise hs
  have hsorted : ∀ i j, i < j → j < es.length →
      (es.getD i default).key < (es.getD j default).key := by
    intro i j hij hj
    have hi : i < es.length := lt_trans hij hj
    rw [List.getD_eq_getElem _ _ hi, List.getD_eq_getElem _ _ hj]
    exact List.pairwise_iff_getElem.mp hpw i j hi hj hij
  obtain ⟨ha, hb, hc, hd⟩ := lbLoop_spec es k hsorted es.length 0 es.length
    (by omega) (Nat.zero_le _) (le_refl _)
    (by intro i hi; omega)
    (by intro i h1 h2; exact absurd h2 (not_lt.mpr h1))
  unfold dataBlockGet
  by_cases hbl : lbLoop es k es.length 0 es.length = es.length
  · rw [if_pos hbl]
    symm
    refine skipFind_eq_none es k ?_
    intro e he
    obtain ⟨i, hi, rfl⟩ := List.mem_iff_getElem.mp he
    have h := hc i (by omega)
    rw [List.getD_eq_getElem _ _ hi] at h
    exact ne_of_lt h
  · rw [if_neg hbl]
    have hblt : lbLoop es k es.length 0 es.length < es.length :=
      lt_of_le_of_ne hb hbl
    by_cases hk : (es.getD (lbLoop es k es.length 0 es.length) default).key = k
    · rw [if_pos hk]
      have hmem : es.getD (lbLoop es k es.length 0 es.length) default ∈ es := by
        rw [List.getD_eq_getElem _ _ hblt]
        exact List.getElem_mem hblt
      have h2 := assocFind_mem_sorted hs hmem
      rw [hk] at h2
      rw [skipFind_eq_assocFind hs, h2]
    · rw [if_neg hk]
      have hklt : k < (es.getD (lbLoop es k es.length 0 es.length) default).key :=
        lt_of_le_of_ne (not_lt.mp (hd _ (le_refl _) hblt)) (Ne.symm hk)
      symm
      refine skipFind_eq_none es k ?_
      intro e he
      obtain ⟨i, hi, rfl⟩ := List.mem_iff_getElem.mp he
      by_cases hib : i < lbLoop es k es.length 0 es.length
      · have h := hc i hib
        rw [List.getD_eq_getElem _ _ hi] at h
        exact ne_of_lt h
      · by_cases hieq : i = lbLoop es k es.length 0 es.length
        · subst hieq
          rw [← List.getD_eq_getElem _ default hi]
          exact hk
        · have h := hsorted (lbLoop es k es.length 0 es.length) i (by omega) hi
          rw [List.getD_eq_getElem _ _ hi] at h
          exact ne_of_gt (lt_trans hklt h)

/-- `SST::Get` on the sorted single-block SSTs equals the walk
lookup. -/
theorem sstGet_eq_skipFind {sst : List Entry}
    (hs : List.Chain' keyLt sst) (k : Key) :
    sstGet sst k = skipFind sst k := by
  cases sst with
  | nil => rfl
  | cons e0 t =>
    show (if k < e0.key then none else dataBlockGet (e0 :: t) k) =
      skipFind (e0 :: t) k
    by_cases hk : k < e0.key
    · rw [if_pos hk]
      symm
      refine skipFind_out_of_range hs (Or.inl ?_)
      show k < firstKeyOf (e0 :: t)
      show k < (List.headD (e0 :: t) default).key
      rw [List.headD_cons]
      exact hk
    · rw [if_neg hk]
      exact dataBlockGet_eq_skipFind (e0 :: t) hs k

/-- Range-disjointness is pairwise once every SST's first key is at
most its last key. -/
theorem chain_sstBelow_pairwise :
    ∀ {ssts : List (List Entry)},
      (∀ sst ∈ ssts, firstKeyOf sst ≤ lastKeyOf sst) →
      List.Chain' sstBelow ssts → List.Pairwise sstBelow ssts := by
  intro ssts
  induction ssts with
  | nil => intro _ _; exact List.Pairwise.nil
  | cons a l ih =>
    intro hfl h
    have htail := ih (fun s hs => hfl s (List.mem_cons_of_mem _ hs)) h.tail
    refine List.pairwise_cons.mpr ⟨?_, htail⟩
    intro b hb
    cases l with
    | nil => simp at hb
    | cons c l1 =>
      have hac : sstBelow a c := h.rel_head
      rcases List.mem_cons.mp hb with rfl | hb
      · exact hac
      · have hcb : sstBelow c b := (List.pairwise_cons.mp htail).1 b hb
        have h1 : firstKeyOf c ≤ lastKeyOf c :=
          hfl c (List.mem_cons_of_mem _ (List.mem_cons_self _ _))
        exact lt_of_lt_of_le hac (le_trans h1 (le_of_lt hcb))

/-- `Level::Get` on a range-disjoint sorted level (`≥ 1`) is the
overlay lookup. -/
theorem levelGet_disjoint (n : Nat) (ssts : List (List Entry)) (k : Key)
    (hchain : List.Pairwise sstBelow ssts)
    (hs : ∀ sst ∈ ssts, List.Chain' keyLt sst ∧ sst ≠ []) :
    levelGet (n + 1) ssts k = overlayFind ssts k := by
  unfold levelGet
  rw [if_neg (Nat.succ_ne_zero n)]
  have hlen : (ssts.map firstKeyOf).length = ssts.length := List.length_map _ _
  have hfirst : ∀ i (hi : i < ssts.length),
      (ssts.map firstKeyOf).getD i default = firstKeyOf ssts[i] := by
    intro i hi
    rw [List.getD_eq_getElem _ _ (by rw [hlen]; exact hi), List.getElem_map]
  have hfks : ∀ i j, i < j → j < (ssts.map firstKeyOf).length →
      (ssts.map firstKeyOf).getD i default <
        (ssts.map firstKeyOf).getD j default := by
    intro i j hij hj
    rw [hlen] at hj
    have hi : i < ssts.length := lt_trans hij hj
    rw [hfirst i hi, hfirst j hj]
    have hbel := List.pairwise_iff_getElem.mp hchain i j hi hj hij
    have h1 := firstKey_le_lastKey (hs ssts[i] (List.getElem_mem hi)).1
      (hs ssts[i] (List.getElem_mem hi)).2
    exact lt_of_le_of_lt h1 hbel
  obtain ⟨ha, hb, hc, hd⟩ := ubLoop_spec (ssts.map firstKeyOf) k hfks
    ssts.length 0 ssts.length (by omega) (Nat.zero_le _) (by rw [hlen])
    (by intro i hi; omega)
    (by
      intro i h1 h2
      rw [hlen] at h2
      exact absurd h2 (not_lt.mpr h1))
  by_cases hb0 : ubLoop (ssts.map firstKeyOf) k ssts.length 0 ssts.length = 0
  · rw [hb0, if_pos rfl]
    symm
    refine overlayFind_eq_none ?_
    intro m hm
    obtain ⟨i, hi, rfl⟩ := List.mem_iff_getElem.mp hm
    refine skipFind_out_of_range (hs _ (List.getElem_mem hi)).1 (Or.inl ?_)
    have h := hd i (by omega) (by rw [hlen]; exact hi)
    rw [hfirst i hi] at h
    exact h
  · rw [if_neg hb0]
    have hble : ubLoop (ssts.map firstKeyOf) k ssts.length 0 ssts.length - 1 <
        ssts.length := by omega
    rw [sstGet_eq_skipFind
      (by
        rw [List.getD_eq_getElem _ _ hble]
        exact (hs _ (List.getElem_mem hble)).1) k]
    symm
    refine overlayFind_eq_of_unique k ssts _ hble ?_
    intro i hi hne
    rw [List.getD_eq_getElem _ _ hi]
    by_cases hilt : i < ubLoop (ssts.map firstKeyOf) k ssts.length 0 ssts.length
    · -- i < b - 1 (since i ≠ b - 1): the SST ends before the candidate starts
      have hlt : i < ubLoop (ssts.map firstKeyOf) k ssts.length 0 ssts.length - 1 := by
        omega
      have hbel := List.pairwise_iff_getElem.mp hchain i _ hi hble hlt
      have h2 := hc (ubLoop (ssts.map firstKeyOf) k ssts.length 0 ssts.length - 1)
        (by omega)
      rw [hfirst _ hble] at h2
      refine skipFind_out_of_range (hs _ (List.getElem_mem hi)).1 (Or.inr ?_)
      calc lastKeyOf ssts[i] < firstKeyOf ssts[ubLoop (ssts.map firstKeyOf) k
            ssts.length 0 ssts.length - 1] := hbel
        _ ≤ k := not_lt.mp h2
    · -- i ≥ b: the SST starts after k
      have h := hd i (by omega) (by rw [hlen]; exact hi)
      rw [hfirst i hi] at h
      exact skipFind_out_of_range (hs _ (List.getElem_mem hi)).1 (Or.inl h)

/-- The next-level scan on a range-disjoint level splits it into the
SSTs entirely below `min_key`, the overlapping window, and the SSTs
entirely above `max_key`, and reports the window boundaries. -/
theorem scanNext_split (minKey maxKey : Key) :
    ∀ (ssts : List (List Entry)) (i : Nat),
      (∀ sst ∈ ssts, firstKeyOf sst ≤ lastKeyOf sst) →
      List.Pairwise sstBelow ssts →
      ∃ below mid above,
        ssts = below ++ mid ++ above ∧
        (∀ sst ∈ below, lastKeyOf sst < minKey) ∧
        (∀ sst ∈ mid, ¬ lastKeyOf sst < minKey ∧ ¬ maxKey < firstKeyOf sst) ∧
        (∀ sst ∈ above, maxKey < firstKeyOf sst) ∧
        scanNext minKey maxKey i ssts =
          ((if below.isEmpty then none else some (i + below.length - 1)),
           (if above.isEmpty then none else some (i + below.length + mid.length)),
           mid) := by
  intro ssts
  induction ssts with
  | nil =>
    intro i _ _
    exact ⟨[], [], [], rfl, by simp, by simp, by simp, rfl⟩
  | cons sst rest ih =>
    intro i hfl hpw
    obtain ⟨below, mid, above, hdecomp, hbelow, hmid, habove, heq⟩ :=
      ih (i + 1) (fun s hs => hfl s (List.mem_cons_of_mem _ hs))
        (List.pairwise_cons.mp hpw).2
    by_cases h1 : lastKeyOf sst < minKey
    · refine ⟨sst :: below, mid, above, by simp [hdecomp], ?_, hmid, habove, ?_⟩
      · intro s hs
        rcases List.mem_cons.mp hs with rfl | hs
        · exact h1
        · exact hbelow s hs
      · simp only [scanNext, if_pos h1]
        rw [heq]
        simp only [Prod.mk.injEq, List.isEmpty_cons, List.length_cons,
          Bool.false_eq_true, if_false]
        refine ⟨?_, ?_, trivial⟩
        · cases below with
          | nil =>
            simp only [List.isEmpty_nil, if_true, Option.getD_none,
              List.length_nil, Option.some.injEq]
            omega
          | cons b bt =>
            simp only [List.isEmpty_cons, Bool.false_eq_true, if_false,
              Option.getD_some, List.length_cons, Option.some.injEq]
            omega
        · cases above with
          | nil => simp
          | cons a at1 =>
            simp only [List.isEmpty_cons, Bool.false_eq_true, if_false,
              Option.some.injEq]
            omega
    · by_cases h2 : maxKey < firstKeyOf sst
      · refine ⟨[], [], sst :: rest, rfl, ?_, ?_, ?_, ?_⟩
        · intro s hs
          simp at hs
        · intro s hs
          simp at hs
        · intro s hs
          rcases List.mem_cons.mp hs with rfl | hs
          · exact h2
          · have hbel := (List.pairwise_cons.mp hpw).1 s hs
            exact lt_trans
              (lt_of_lt_of_le h2 (hfl sst (List.mem_cons_self _ _))) hbel
        · simp only [scanNext, if_neg h1, if_pos h2]
          rfl
      · have hbelnil : below = [] := by
          cases below with
          | nil => rfl
          | cons b btail =>
            exfalso
            have hbmem : b ∈ rest := by
              rw [hdecomp]
              exact List.mem_append.mpr (Or.inl (List.mem_cons_self _ _))
            have hbel := (List.pairwise_cons.mp hpw).1 b hbmem
            have hblast := hbelow b (List.mem_cons_self _ _)
            exact h1 (lt_trans (lt_of_lt_of_le hbel (hfl b
              (List.mem_cons_of_mem _ hbmem))) hblast)
        subst hbelnil
        refine ⟨[], sst :: mid, above, by simp [hdecomp], ?_, ?_, habove, ?_⟩
        · intro s hs
          simp at hs
        · intro s hs
          rcases List.mem_cons.mp hs with rfl | hs
          · exact ⟨h1, h2⟩
          · exact hmid s hs
        · simp only [scanNext, if_neg h1, if_neg h2]
          rw [heq]
          simp only [Prod.mk.injEq, List.isEmpty_nil, if_true,
            List.length_nil, List.length_cons]
          refine ⟨trivial, ?_, trivial⟩
          cases above with
          | nil => simp
          | cons a at1 =>
            simp only [List.isEmpty_cons, Bool.false_eq_true, if_false,
              Option.some.injEq]
            omega

/-- Overlay of a single SST. -/
theorem overlayFind_singleton (m : List Entry) (k : Key) :
    overlayFind [m] k = skipFind m k := by
  unfold overlayFind
  simp only [List.findSome?_cons]
  cases h : skipFind m k with
  | none => rfl
  | some v => rfl

/-- The view lemma for the rebuilt next level: merging the compacted
level (newest first) with the overlap window and splicing the result
between the `below` and `above` parts preserves sortedness,
range-disjointness, non-empty keys, and the overlay view with the
compacted level taking precedence. -/
theorem newNext_view (srcsRev below mid above : List (List Entry))
    (minK maxK : Key)
    (hsrcs_ne : srcsRev ≠ [])
    (hsrcs : ∀ sst ∈ srcsRev, List.Chain' keyLt sst ∧ sst ≠ [])
    (hsrcsK : ∀ sst ∈ srcsRev, ∀ e ∈ sst, e.key ≠ [])
    (hlo : ∀ sst ∈ srcsRev, minK ≤ firstKeyOf sst)
    (hhi : ∀ sst ∈ srcsRev, lastKeyOf sst ≤ maxK)
    (hnext : ∀ sst ∈ below ++ mid ++ above, List.Chain' keyLt sst ∧ sst ≠ [])
    (hnextK : ∀ sst ∈ below ++ mid ++ above, ∀ e ∈ sst, e.key ≠ [])
    (hpw : List.Pairwise sstBelow (below ++ mid ++ above))
    (hbelow : ∀ sst ∈ below, lastKeyOf sst < minK)
    (habove : ∀ sst ∈ above, maxK < firstKeyOf sst) :
    (∀ sst ∈ below ++ mergedOf srcsRev mid :: above,
      List.Chain' keyLt sst ∧ sst ≠ [] ∧ ∀ e ∈ sst, e.key ≠ []) ∧
    List.Chain' sstBelow (below ++ mergedOf srcsRev mid :: above) ∧
    ∀ k, overlayFind (below ++ mergedOf srcsRev mid :: above) k =
      overlayFind (srcsRev ++ (below ++ mid ++ above)) k := by
  have hmid_mem : ∀ sst ∈ mid, sst ∈ below ++ mid ++ above := by
    intro sst hs
    exact List.mem_append.mpr (Or.inl (List.mem_append.mpr (Or.inr hs)))
  have hbelow_mem : ∀ sst ∈ below, sst ∈ below ++ mid ++ above := by
    intro sst hs
    exact List.mem_append.mpr (Or.inl (List.mem_append.mpr (Or.inl hs)))
  have habove_mem : ∀ sst ∈ above, sst ∈ below ++ mid ++ above := fun sst hs =>
    List.mem_append.mpr (Or.inr hs)
  obtain ⟨hpw_bm, hpw_a, hcross_bm_a⟩ := List.pairwise_append.mp hpw
  obtain ⟨hpw_b, hpw_m, hcross_b_m⟩ := List.pairwise_append.mp hpw_bm
  -- the tagged merge sources
  have hsm : ∀ s ∈ tagSources (srcsRev ++ mid), s.entries ∈ srcsRev ++ mid :=
    fun s hs => tagSources_entries_mem hs
  have hsrcmid : ∀ m1 ∈ srcsRev ++ mid, List.Chain' keyLt m1 ∧ m1 ≠ [] := by
    intro m1 hm1
    rcases List.mem_append.mp hm1 with h | h
    · exact hsrcs m1 h
    · exact hnext m1 (hmid_mem m1 h)
  obtain ⟨hmsorted, hmview0⟩ := compactionMerge_spec (tagSources (srcsRev ++ mid))
    (fun s hs => (hsrcmid s.entries (hsm s hs)).2)
    (fun s hs => (hsrcmid s.entries (hsm s hs)).1)
    (tagSources_sv_nodup _)
  have hmview : ∀ k, skipFind (mergedOf srcsRev mid) k =
      overlayFind (srcsRev ++ mid) k := by
    intro k
    show skipFind (compactionMerge (tagSources (srcsRev ++ mid))) k = _
    rw [skipFind_eq_assocFind hmsorted, hmview0 k, srcLookup_tagSources]
  have hmergedSorted : List.Chain' keyLt (mergedOf srcsRev mid) := hmsorted
  -- merged is non-empty: it holds the first key of the newest source
  have hmne : mergedOf srcsRev mid ≠ [] := by
    cases hsr : srcsRev with
    | nil => exact absurd hsr hsrcs_ne
    | cons s0 srest =>
      cases hs0 : s0 with
      | nil =>
        exact absurd hs0 (hsrcs s0 (hsr ▸ List.mem_cons_self _ _)).2
      | cons e0 t0 =>
        intro hcon
        have h1 := hmview e0.key
        rw [hsr, hs0] at h1
        rw [hcon] at h1
        have h2 : overlayFind (((e0 :: t0) :: srest) ++ mid) e0.key = none :=
          h1.symm
        rw [show ((e0 :: t0) :: srest) ++ mid = (e0 :: t0) :: (srest ++ mid)
          from rfl] at h2
        unfold overlayFind at h2
        simp only [List.findSome?_cons, skipFind_cons_self] at h2
        exact Option.some_ne_none _ h2
  -- every merged key lies strictly between the below and above parts
  have hrange : ∀ e ∈ mergedOf srcsRev mid,
      (∀ b ∈ below, lastKeyOf b < e.key) ∧
      (∀ a ∈ above, e.key < firstKeyOf a) ∧ e.key ≠ [] := by
    intro e he
    have h1 : (assocFind (mergedOf srcsRev mid) e.key).isSome :=
      assocFind_isSome_of_mem he
    rw [← skipFind_eq_assocFind hmergedSorted, hmview e.key] at h1
    obtain ⟨v, hv⟩ := Option.isSome_iff_exists.mp h1
    obtain ⟨m1, hm1, hfind⟩ := List.exists_of_findSome?_eq_some hv
    obtain ⟨e1, he1, hk1, _⟩ := skipFind_mem m1 e.key v hfind
    rcases List.mem_append.mp hm1 with hm1 | hm1
    · obtain ⟨hrlo, hrhi⟩ := skipFind_in_range (hsrcs m1 hm1).1 hfind
      refine ⟨?_, ?_, ?_⟩
      · intro b hbm
        exact lt_of_lt_of_le (hbelow b hbm) (le_trans (hlo m1 hm1) hrlo)
      · intro a ham
        exact lt_of_le_of_lt (le_trans hrhi (hhi m1 hm1)) (habove a ham)
      · exact hk1 ▸ hsrcsK m1 hm1 e1 he1
    · obtain ⟨hrlo, hrhi⟩ :=
        skipFind_in_range (hnext m1 (hmid_mem m1 hm1)).1 hfind
      refine ⟨?_, ?_, ?_⟩
      · intro b hbm
        exact lt_of_lt_of_le (hcross_b_m b hbm m1 hm1) hrlo
      · intro a ham
        exact lt_of_le_of_lt hrhi
          (hcross_bm_a m1 (List.mem_append.mpr (Or.inr hm1)) a ham)
      · exact hk1 ▸ hnextK m1 (hmid_mem m1 hm1) e1 he1
  refine ⟨?_, ?_, ?_⟩
  · -- per-SST facts of the rebuilt level
    intro sst hsst
    rcases List.mem_append.mp hsst with h | h
    · exact ⟨(hnext sst (hbelow_mem sst h)).1, (hnext sst (hbelow_mem sst h)).2,
        hnextK sst (hbelow_mem sst h)⟩
    · rcases List.mem_cons.mp h with rfl | h
      · exact ⟨hmergedSorted, hmne, fun e he => (hrange e he).2.2⟩
      · exact ⟨(hnext sst (habove_mem sst h)).1, (hnext sst (habove_mem sst h)).2,
        hnextK sst (habove_mem sst h)⟩
  · -- range-disjointness of the rebuilt level
    rw [List.chain'_append]
    refine ⟨hpw_b.chain', ?_, ?_⟩
    · rw [List.chain'_cons']
      refine ⟨?_, hpw_a.chain'⟩
      intro y hy
      have hym : y ∈ above := List.mem_of_mem_head? hy
      show lastKeyOf (mergedOf srcsRev mid) < firstKeyOf y
      exact (hrange _ (getLastD_mem _ _ hmne)).2.1 y hym
    · intro x hx y hy
      have hxm : x ∈ below := by
        obtain ⟨hh, hx2⟩ := List.mem_getLast?_eq_getLast hx
        rw [hx2]
        exact List.getLast_mem hh
      have hy2 : y = mergedOf srcsRev mid := by
        rw [List.head?_cons] at hy
        exact (Option.mem_some_iff.mp hy).symm
      subst hy2
      show lastKeyOf x < firstKeyOf (mergedOf srcsRev mid)
      cases hm : mergedOf srcsRev mid with
      | nil => exact absurd hm hmne
      | cons e0 rest =>
        have hfk : firstKeyOf (e0 :: rest) = e0.key := by
          show (List.headD (e0 :: rest) default).key = e0.key
          rw [List.headD_cons]
        rw [hfk]
        exact (hrange e0 (hm ▸ List.mem_cons_self _ _)).1 x hxm
  · -- the overlay view
    intro k
    rw [overlayFind_append below (mergedOf srcsRev mid :: above) k,
      show mergedOf srcsRev mid :: above = [mergedOf srcsRev mid] ++ above
        from rfl,
      overlayFind_append [mergedOf srcsRev mid] above k,
      overlayFind_singleton, hmview k,
      overlayFind_append srcsRev mid k,
      overlayFind_append srcsRev (below ++ mid ++ above) k,
      overlayFind_append (below ++ mid) above k,
      overlayFind_append below mid k]
    cases hB : overlayFind below k with
    | some v =>
      obtain ⟨bsst, hbsst, hbfind⟩ := List.exists_of_findSome?_eq_some hB
      obtain ⟨hbrlo, hbrhi⟩ :=
        skipFind_in_range (hnext bsst (hbelow_mem bsst hbsst)).1 hbfind
      have hkmin : k < minK := lt_of_le_of_lt hbrhi (hbelow bsst hbsst)
      have hS : overlayFind srcsRev k = none :=
        overlayFind_eq_none (fun m1 hm1 =>
          skipFind_out_of_range (hsrcs m1 hm1).1
            (Or.inl (lt_of_lt_of_le hkmin (hlo m1 hm1))))
      have hM : overlayFind mid k = none :=
        overlayFind_eq_none (fun m1 hm1 =>
          skipFind_out_of_range (hnext m1 (hmid_mem m1 hm1)).1
            (Or.inl (lt_of_le_of_lt hbrhi (hcross_b_m bsst hbsst m1 hm1))))
      have hA : overlayFind above k = none :=
        overlayFind_eq_none (fun a1 ha1 =>
          skipFind_out_of_range (hnext a1 (habove_mem a1 ha1)).1
            (Or.inl (lt_of_le_of_lt hbrhi
              (hcross_bm_a bsst (List.mem_append.mpr (Or.inl hbsst)) a1 ha1))))
      rw [hS, hM, hA]
      rfl
    | none =>
      rw [Option.none_or, Option.none_or, Option.or_assoc]

/-- Computing `SizeTieredCompaction`'s rebuild of the next level from
the scan decomposition: the kept prefix is exactly `below`, the merged
SST is spliced in, and the kept suffix is exactly `above`. -/
theorem sizeTieredCompactionOne_eq (levels : List (List (List Entry)))
    (level : Nat) {below mid above : List (List Entry)}
    (hdecomp : (if level + 1 = levels.length then levels ++ [[]]
        else levels).getD (level + 1) [] = below ++ mid ++ above)
    (hscan : scanNext (minKeyOf (levels.getD level []).reverse)
        (maxKeyOf (levels.getD level []).reverse) 0
        ((if level + 1 = levels.length then levels ++ [[]]
          else levels).getD (level + 1) []) =
      ((if below.isEmpty then none else some (0 + below.length - 1)),
       (if above.isEmpty then none else some (0 + below.length + mid.length)),
       mid)) :
    sizeTieredCompactionOne levels level =
      (((if level + 1 = levels.length then levels ++ [[]]
        else levels).set level []).set (level + 1)
        (below ++ mergedOf (levels.getD level []).reverse mid :: above)) := by
  have h1 : (scanNext (minKeyOf (levels.getD level []).reverse)
      (maxKeyOf (levels.getD level []).reverse) 0
      ((if level + 1 = levels.length then levels ++ [[]]
        else levels).getD (level + 1) [])).1 =
      (if below.isEmpty then none else some (0 + below.length - 1)) := by
    rw [hscan]
  have h2 : (scanNext (minKeyOf (levels.getD level []).reverse)
      (maxKeyOf (levels.getD level []).reverse) 0
      ((if level + 1 = levels.length then levels ++ [[]]
        else levels).getD (level + 1) [])).2.1 =
      (if above.isEmpty then none else some (0 + below.length + mid.length)) := by
    rw [hscan]
  have h3 : (scanNext (minKeyOf (levels.getD level []).reverse)
      (maxKeyOf (levels.getD level []).reverse) 0
      ((if level + 1 = levels.length then levels ++ [[]]
        else levels).getD (level + 1) [])).2.2 = mid := by
    rw [hscan]
  have htake : ((if level + 1 = levels.length then levels ++ [[]]
      else levels).getD (level + 1) []).take
      (match (if below.isEmpty then none
              else some (0 + below.length - 1)) with
       | some i => i + 1
       | none => 0) = below := by
    rw [hdecomp]
    cases below with
    | nil => rfl
    | cons b bt =>
      show ((b :: bt) ++ mid ++ above).take (0 + (b :: bt).length - 1 + 1) =
        b :: bt
      rw [List.append_assoc]
      refine List.take_left' ?_
      simp only [List.length_cons]
      omega
  have hdrop : ((if level + 1 = levels.length then levels ++ [[]]
      else levels).getD (level + 1) []).drop
      ((if above.isEmpty then none
        else some (0 + below.length + mid.length)).getD
        ((if level + 1 = levels.length then levels ++ [[]]
          else levels).getD (level + 1) []).length) = above := by
    rw [hdecomp]
    cases above with
    | nil =>
      show (below ++ mid ++ ([] : List (List Entry))).drop
        (below ++ mid ++ ([] : List (List Entry))).length = []
      exact List.drop_length _
    | cons a at1 =>
      show (below ++ mid ++ (a :: at1)).drop (0 + below.length + mid.length) =
        a :: at1
      refine List.drop_left' ?_
      simp only [List.length_append]
      omega
  simp only [sizeTieredCompactionOne]
  rw [h1, h2, h3, htake, hdrop]

/-- `getD` after `set` at the written index. -/
theorem getD_set_self {α : Type} (l : List α) (i : Nat) (a d : α)
    (h : i < l.length) : (l.set i a).getD i d = a := by
  rw [List.getD_eq_getElem?_getD, List.getElem?_set_self h]
  rfl

/-- `getD` after `set` at another index. -/
theorem getD_set_ne {α : Type} (l : List α) (i j : Nat) (a d : α)
    (h : i ≠ j) : (l.set i a).getD j d = l.getD j d := by
  rw [List.getD_eq_getElem?_getD, List.getD_eq_getElem?_getD,
    List.getElem?_set_ne h]

/-- Full characterisation of one `SizeTieredCompaction(level)` step on
the level structure under the reachable-manifest hypotheses: the next
level keeps sorted, non-empty, range-disjoint SSTs with non-empty keys,
the compacted level empties, other levels are untouched, and both the
overlay and binary-search views of the next level equal the
pre-compaction overlay of the compacted level (newest first) over the
old next level. -/
theorem sizeTieredCompaction_overlay (levels : List (List (List Entry)))
    (level : Nat)
    (hLne : levels.getD level [] ≠ [])
    (hLs : ∀ sst ∈ levels.getD level [], List.Chain' keyLt sst ∧ sst ≠ [])
    (hLk : ∀ sst ∈ levels.getD level [], ∀ e ∈ sst, e.key ≠ [])
    (hNs : ∀ sst ∈ levels.getD (level + 1) [],
      List.Chain' keyLt sst ∧ sst ≠ [])
    (hNk : ∀ sst ∈ levels.getD (level + 1) [], ∀ e ∈ sst, e.key ≠ [])
    (hNchain : List.Chain' sstBelow (levels.getD (level + 1) [])) :
    (∀ sst ∈ (sizeTieredCompactionOne levels level).getD (level + 1) [],
       List.Chain' keyLt sst ∧ sst ≠ [] ∧ ∀ e ∈ sst, e.key ≠ []) ∧
    List.Chain' sstBelow
      ((sizeTieredCompactionOne levels level).getD (level + 1) []) ∧
    (sizeTieredCompactionOne levels level).getD level [] = [] ∧
    (∀ j, j ≠ level → j ≠ level + 1 →
      (sizeTieredCompactionOne levels level).getD j [] = levels.getD j []) ∧
    sizeTieredCompactionOne levels level ≠ [] ∧
    sizeTieredCompactionOne levels level =
      ((if level + 1 = levels.length then levels ++ [[]]
        else levels).set level []).set (level + 1)
        ((sizeTieredCompactionOne levels level).getD (level + 1) []) ∧
    (∀ k, overlayFind
        ((sizeTieredCompactionOne levels level).getD (level + 1) []) k =
      overlayFind ((levels.getD level []).reverse ++
        levels.getD (level + 1) []) k) ∧
    (∀ k, levelGet (level + 1)
        ((sizeTieredCompactionOne levels level).getD (level + 1) []) k =
      overlayFind ((levels.getD level []).reverse ++
        levels.getD (level + 1) []) k) := by
  have hlevel_lt : level < levels.length := by
    by_contra h
    push_neg at h
    exact hLne (List.getD_eq_default _ _ h)
  have hnext_eq : (if level + 1 = levels.length then levels ++ [[]]
      else levels).getD (level + 1) [] = levels.getD (level + 1) [] := by
    split_ifs with h
    · rw [List.getD_append_right levels [[]] [] (level + 1) (by omega),
        List.getD_eq_default levels [] (by omega),
        show level + 1 - levels.length = 0 by omega]
      rfl
    · rfl
  have hsrcs : ∀ sst ∈ (levels.getD level []).reverse,
      List.Chain' keyLt sst ∧ sst ≠ [] :=
    fun sst hs => hLs sst (List.mem_reverse.mp hs)
  have hsrcsK : ∀ sst ∈ (levels.getD level []).reverse,
      ∀ e ∈ sst, e.key ≠ [] :=
    fun sst hs => hLk sst (List.mem_reverse.mp hs)
  have hsrcs_ne : (levels.getD level []).reverse ≠ [] := by
    intro h
    exact hLne (List.reverse_eq_nil_iff.mp h)
  have hfk_ne : ∀ sst ∈ (levels.getD level []).reverse,
      firstKeyOf sst ≠ [] := by
    intro sst hs
    have hne := (hsrcs sst hs).2
    have hK := hsrcsK sst hs
    cases sst with
    | nil => exact absurd rfl hne
    | cons e t =>
      show (List.headD (e :: t) default).key ≠ []
      rw [List.headD_cons]
      exact hK e (List.mem_cons_self _ _)
  have hlk_ne : ∀ sst ∈ (levels.getD level []).reverse,
      lastKeyOf sst ≠ [] := by
    intro sst hs
    have hne := (hsrcs sst hs).2
    have hK := hsrcsK sst hs
    show (sst.getLastD default).key ≠ []
    exact hK _ (getLastD_mem sst default hne)
  have hlo := minKeyOf_le hfk_ne
  have hhi := maxKeyOf_ge hlk_ne
  have hNfl : ∀ sst ∈ levels.getD (level + 1) [],
      firstKeyOf sst ≤ lastKeyOf sst :=
    fun sst hs => firstKey_le_lastKey (hNs sst hs).1 (hNs sst hs).2
  have hNpw := chain_sstBelow_pairwise hNfl hNchain
  obtain ⟨below, mid, above, hdecomp, hbelow, hmidp, habove, hscan⟩ :=
    scanNext_split (minKeyOf (levels.getD level []).reverse)
      (maxKeyOf (levels.getD level []).reverse)
      (levels.getD (level + 1) []) 0 hNfl hNpw
  have hdecomp1 : (if level + 1 = levels.length then levels ++ [[]]
      else levels).getD (level + 1) [] = below ++ mid ++ above := by
    rw [hnext_eq]
    exact hdecomp
  have hscan1 : scanNext (minKeyOf (levels.getD level []).reverse)
      (maxKeyOf (levels.getD level []).reverse) 0
      ((if level + 1 = levels.length then levels ++ [[]]
        else levels).getD (level + 1) []) =
      ((if below.isEmpty then none else some (0 + below.length - 1)),
       (if above.isEmpty then none else some (0 + below.length + mid.length)),
       mid) := by
    rw [hnext_eq]
    exact hscan
  have hres := sizeTieredCompactionOne_eq levels level hdecomp1 hscan1
  obtain ⟨hN1, hN2, hN3⟩ := newNext_view (levels.getD level []).reverse
    below mid above (minKeyOf (levels.getD level []).reverse)
    (maxKeyOf (levels.getD level []).reverse)
    hsrcs_ne hsrcs hsrcsK hlo hhi
    (fun sst hs => hNs sst (by rw [hdecomp]; exact hs))
    (fun sst hs => hNk sst (by rw [hdecomp]; exact hs))
    (by rw [← hdecomp]; exact hNpw)
    hbelow habove
  have hlt1 : level + 1 < (if level + 1 = levels.length then levels ++ [[]]
      else levels).length := by
    split_ifs with h
    · simp only [List.length_append, List.length_cons, List.length_nil]
      omega
    · omega
  have hlt0 : level < (if level + 1 = levels.length then levels ++ [[]]
      else levels).length := by
    split_ifs with h
    · simp only [List.length_append, List.length_cons, List.length_nil]
      omega
    · omega
  have hget1 : (sizeTieredCompactionOne levels level).getD (level + 1) [] =
      below ++ mergedOf (levels.getD level []).reverse mid :: above := by
    rw [hres]
    exact getD_set_self _ _ _ _ (by rw [List.length_set]; exact hlt1)
  have hget0 : (sizeTieredCompactionOne levels level).getD level [] = [] := by
    rw [hres, getD_set_ne _ _ _ _ _ (by omega)]
    exact getD_set_self _ _ _ _ hlt0
  refine ⟨?_, ?_, hget0, ?_, ?_, ?_, ?_, ?_⟩
  · rw [hget1]
    exact hN1
  · rw [hget1]
    exact hN2
  · intro j hj0 hj1
    rw [hres, getD_set_ne _ _ _ _ _ (fun h => hj1 h.symm),
      getD_set_ne _ _ _ _ _ (fun h => hj0 h.symm)]
    split_ifs with h
    · by_cases hjlen : j < levels.length
      · exact List.getD_append _ _ _ _ hjlen
      · rw [List.getD_eq_default _ _ (by
          simp only [List.length_append, List.length_cons, List.length_nil]
          omega),
          List.getD_eq_default _ _ (by omega)]
    · rfl
  · intro hcon
    have hlen : (sizeTieredCompactionOne levels level).length = 0 := by
      rw [hcon]
      rfl
    rw [hres, List.length_set, List.length_set] at hlen
    omega
  · rw [hget1]
    exact hres
  · intro k
    rw [hget1, hN3 k, hdecomp]
  · intro k
    rw [hget1]
    have hpw1 : List.Pairwise sstBelow
        (below ++ mergedOf (levels.getD level []).reverse mid :: above) := by
      refine chain_sstBelow_pairwise ?_ hN2
      intro sst hs
      exact firstKey_le_lastKey (hN1 sst hs).1 (hN1 sst hs).2.1
    rw [levelGet_disjoint level _ k hpw1
      (fun sst hs => ⟨(hN1 sst hs).1, (hN1 sst hs).2.1⟩)]
    rw [hN3 k, hdecomp]

/-- C2 (amended): on a manifest whose SSTs are sorted with non-empty
keys and whose next level is range-disjoint, compacting `level` into
`level + 1` preserves the observable view: every key's post-compaction
`Level::Get` on the rebuilt next level equals the pre-compaction
overlay of the compacted level (newest SST first) over the old next
level, and every key appears at most once per rebuilt SST.  The
original claim assumed only per-SST sortedness; the counterexample
`sizeTieredCompaction_cex` shows the next level's range-disjointness is
indispensable, and C1's counterexample shows the same for non-empty
keys (the `min_key` sentinel). -/
theorem sizeTieredCompaction_view (levels : List (List (List Entry)))
    (level : Nat)
    (hLne : levels.getD level [] ≠ [])
    (hLs : ∀ sst ∈ levels.getD level [], List.Chain' keyLt sst ∧ sst ≠ [])
    (hLk : ∀ sst ∈ levels.getD level [], ∀ e ∈ sst, e.key ≠ [])
    (hNs : ∀ sst ∈ levels.getD (level + 1) [],
      List.Chain' keyLt sst ∧ sst ≠ [])
    (hNk : ∀ sst ∈ levels.getD (level + 1) [], ∀ e ∈ sst, e.key ≠ [])
    (hNchain : List.Chain' sstBelow (levels.getD (level + 1) [])) :
    (∀ k, levelGet (level + 1)
        ((sizeTieredCompactionOne levels level).getD (level + 1) []) k =
      overlayFind ((levels.getD level []).reverse ++
        levels.getD (level + 1) []) k) ∧
    (∀ sst ∈ (sizeTieredCompactionOne levels level).getD (level + 1) [],
      (sst.map Entry.key).Nodup) := by
  obtain ⟨hAll, _, _, _, _, _, _, hView⟩ :=
    sizeTieredCompaction_overlay levels level hLne hLs hLk hNs hNk hNchain
  refine ⟨hView, ?_⟩
  intro sst hs
  have h := chain_keyLt_pairwise (hAll sst hs).1
  exact List.pairwise_map.mpr (h.imp (fun hab => ne_of_lt hab))

/-- Witness for C2 on a concrete well-formed manifest. -/
theorem sizeTieredCompaction_view_w :
    (levelsC2w.getD 0 [] ≠ [] ∧
     List.Chain' sstBelow (levelsC2w.getD 1 [])) ∧
    (∀ k, levelGet 1 ((sizeTieredCompactionOne levelsC2w 0).getD 1 []) k =
      overlayFind ((levelsC2w.getD 0 []).reverse ++ levelsC2w.getD 1 []) k) ∧
    (∀ sst ∈ (sizeTieredCompactionOne levelsC2w 0).getD 1 [],
      (sst.map Entry.key).Nodup) :=
  ⟨⟨by decide, by
      show List.Chain' sstBelow [[Entry.mk [1] [7]], [Entry.mk [3] [8]]]
      exact List.chain'_pair.mpr (by decide)⟩,
   sizeTieredCompaction_view levelsC2w 0 (by decide)
     (by
       intro sst hs
       have hs1 : sst = [Entry.mk [2] [9]] := by
         simpa [levelsC2w] using hs
       subst hs1
       exact ⟨List.chain'_singleton _, by decide⟩)
     (by decide)
     (by
       intro sst hs
       have hs1 : sst = [Entry.mk [1] [7]] ∨ sst = [Entry.mk [3] [8]] := by
         simpa [levelsC2w] using hs
       rcases hs1 with rfl | rfl
       · exact ⟨List.chain'_singleton _, by decide⟩
       · exact ⟨List.chain'_singleton _, by decide⟩)
     (by decide)
     (by
       show List.Chain' sstBelow [[Entry.mk [1] [7]], [Entry.mk [3] [8]]]
       exact List.chain'_pair.mpr (by decide))⟩

/-- Counterexample to C2 as stated: every SST of `levelsC2` holds
strictly-ascending keys, the key `[122]` is present in a merged input
SST (`sstO2` joins the merge window), the pre-compaction overlay
yields its value `[22]`, but after compacting level 0 the next level's
lookup misses it: the rebuilt level is no longer range-disjoint, so
`Level::Get`'s binary search probes only the later SST. -/
theorem sizeTieredCompaction_cex :
    (∀ lvl ∈ levelsC2, ∀ sst ∈ lvl, List.Chain' keyLt sst) ∧
    (∃ e ∈ sstO2, e.key = [122]) ∧
    overlayFind ((levelsC2.getD 0 []).reverse ++ levelsC2.getD 1 []) [122] =
      some [22] ∧
    levelGet 1 ((sizeTieredCompactionOne levelsC2 0).getD 1 []) [122] =
      none := by
  refine ⟨?_, by decide, by decide, by decide⟩
  intro lvl hl
  have hl1 : lvl = [sstS2] ∨ lvl = [sstO2, sstR2] := by
    simpa [levelsC2] using hl
  rcases hl1 with rfl | rfl
  · intro sst hs
    have hs1 : sst = sstS2 := by simpa using hs
    subst hs1
    exact List.chain'_singleton _
  · intro sst hs
    have hs1 : sst = sstO2 ∨ sst = sstR2 := by simpa using hs
    rcases hs1 with rfl | rfl
    · exact List.chain'_pair.mpr (by decide)
    · exact List.chain'_singleton _

/-! ### C1 groundwork: skip-list put preserves sortedness -/

/-- Members after a put: the new entry or an old member. -/
theorem skipPut_mem (l : List Entry) (k : Key) (v : Value) :
    ∀ x ∈ (skipPut l k v).1, x = Entry.mk k v ∨ x ∈ l := by
  induction l with
  | nil =>
    intro x hx
    simp only [skipPut] at hx
    rcases List.mem_cons.mp hx with rfl | hx
    · exact Or.inl rfl
    · simp at hx
  | cons e rest ih =>
    intro x hx
    simp only [skipPut] at hx
    split_ifs at hx with h1 h2
    · rcases List.mem_cons.mp hx with rfl | hx
      · exact Or.inr (List.mem_cons_self _ _)
      · rcases ih x hx with h | h
        · exact Or.inl h
        · exact Or.inr (List.mem_cons_of_mem _ h)
    · rcases List.mem_cons.mp hx with rfl | hx
      · exact Or.inl rfl
      · exact Or.inr (List.mem_cons_of_mem _ hx)
    · rcases List.mem_cons.mp hx with rfl | hx
      · exact Or.inl rfl
      · exact Or.inr hx

/-- `Put` keeps the entry list sorted. -/
theorem skipPut_chain :
    ∀ {l : List Entry}, List.Chain' keyLt l → ∀ (k : Key) (v : Value),
      List.Chain' keyLt (skipPut l k v).1 := by
  intro l
  induction l with
  | nil =>
    intro _ k v
    exact List.chain'_singleton _
  | cons e rest ih =>
    intro h k v
    simp only [skipPut]
    split_ifs with h1 h2
    · rw [List.chain'_cons']
      refine ⟨?_, ih h.tail k v⟩
      intro y hy
      have hym := List.mem_of_mem_head? hy
      rcases skipPut_mem rest k v y hym with rfl | hym2
      · exact h1
      · exact List.rel_of_pairwise_cons (chain_keyLt_pairwise h) hym2
    · rw [List.chain'_cons']
      refine ⟨?_, h.tail⟩
      intro y hy
      have hym := List.mem_of_mem_head? hy
      show k < y.key
      rw [← h2]
      exact List.rel_of_pairwise_cons (chain_keyLt_pairwise h) hym
    · have hk : k < e.key :=
        lt_of_le_of_ne (not_lt.mp h1) (fun hc => h2 hc.symm)
      exact List.Chain'.cons hk h
  -- member access helper below

/-- The entry list after `MemTable::Put`. -/
theorem memPut_entries (m : MemTable) (k : Key) (v : Value) :
    (m.put k v).entries = (skipPut m.entries k v).1 := by
  unfold MemTable.put
  cases h : skipPut m.entries k v with
  | mk es o =>
    cases o with
    | none => rfl
    | some old => rfl

/-- `Put` never leaves the entry list empty. -/
theorem skipPut_fst_ne_nil (l : List Entry) (k : Key) (v : Value) :
    (skipPut l k v).1 ≠ [] := by
  cases l with
  | nil => simp [skipPut]
  | cons e rest =>
    simp only [skipPut]
    split_ifs <;> simp

/-! ### C1: the flush path destroys the data it persists -/

/-- C1 (code bug): the claimed lookup chain — active MemTable, then
the immutable queue newest-first, then the latest Manifest — cannot
return the most-recently-Put value once a flush intervenes, because
the flush itself is broken.  `DB::ToSST` unconditionally builds the
SST with `SST(MemeTable&, size_t, CompressionConfig)`, and that
constructor's `CompressedBlockBuilder::Build` under-allocates its
output: it resizes `result` to
`sizeof(size_t) + sizeof(uint8_t) + header_size` bytes but its final
`memcpy` writes `raw_data_` ending at
`sizeof(size_t) + sizeof(uint8_t) + bloom_size + sizeof(size_t)
+ raw_data_.size()`.  For every MemTable that has received at least
one `Put` — which every flushed MemTable has — and whatever the bloom
filter's serialised size, the bytes written exceed the bytes
allocated, a heap-buffer overflow: the flushed block has no
well-defined contents for the Manifest lookup to read. -/
theorem toSST_build_overflow (m : MemTable) (k : Key) (v : Value) (b : Nat) :
    buildAllocSize b < buildWriteEnd b (builderRawSize (m.put k v).entries) := by
  have hne : (m.put k v).entries ≠ [] := by
    rw [memPut_entries]
    exact skipPut_fst_ne_nil m.entries k v
  have hraw : 16 ≤ builderRawSize (m.put k v).entries := by
    cases hE : (m.put k v).entries with
    | nil => exact absurd hE hne
    | cons e rest =>
      unfold builderRawSize
      simp only [List.map_cons, List.sum_cons]
      have h1 : 16 ≤ entryRawSize e := by
        unfold entryRawSize
        omega
      omega
  unfold buildAllocSize buildHeaderSize buildWriteEnd
  omega

end ShuaiKV
